import Mathlib

/-!
# PiOS delay functions (flight/PiOS/STM32/pios_delay.c)

A shallow embedding of the cycle-counter time base: the calibration done by
`PIOS_DELAY_Init`, the busy-wait of `PIOS_DELAY_WaituS` and the elapsed-time
queries.  Every `uint32_t` is a natural number; each C operation that can wrap
is written with an explicit reduction modulo `2^32`.  A read of `DWT->CYCCNT`
is an input of the function that performs it: one sample for the queries, the
list of successive samples for the busy-wait loop.
-/

namespace PiosDelay

/-! ## Machine integers -/

/-- Number of values of a `uint32_t`, that is `2^32`. -/
def U32 : Nat := 4294967296

/-- Addition of two `uint32_t`, wrapping at `2^32`. -/
def add32 (a b : Nat) : Nat := (a + b) % U32

/-- Subtraction `a - b` of two `uint32_t`, wrapping at `2^32`. -/
def sub32 (a b : Nat) : Nat := (a + U32 - b) % U32

/-! ## State -/

/-- Modelled from the spec: the trace-enable bit of the debug control register
(`CoreDebug_DEMCR_TRCENA_Msk`, declared by the CMSIS core header, outside the
sources at hand): bit 24. -/
def CoreDebug_DEMCR_TRCENA_Msk : Nat := 16777216

/-- Modelled from the spec: the enable bit of the cycle counter
(`DWT_CTRL_CYCCNTENA_Msk`, declared by the CMSIS core header, outside the
sources at hand): bit 0. -/
def DWT_CTRL_CYCCNTENA_Msk : Nat := 1

/-- The two file-static variables of pios_delay.c together with the two
hardware registers the file writes. -/
structure DelayState where
  /-- Cycles per microsecond (`static uint32_t us_ticks`). -/
  us_ticks : Nat
  /-- Modulus of the microsecond counter (`static uint32_t us_modulo`). -/
  us_modulo : Nat
  /-- Register `CoreDebug->DEMCR`. -/
  DEMCR : Nat
  /-- Register `DWT->CTRL`. -/
  DWT_CTRL : Nat
deriving DecidableEq

/-- The ways `PIOS_DELAY_Init` can stop without returning. -/
inductive Fault where
  /-- `PIOS_DEBUG_Assert(us_ticks > 1)` fired. -/
  | assertTicks
  /-- `PIOS_Assert(us_modulo < 0x80000000)` fired. -/
  | assertModulo
  /-- Integer division by a zero `us_ticks`. -/
  | divideByZero
deriving DecidableEq

/-! ## PIOS_DELAY_Init -/

/-- Lines 58-59 of `PIOS_DELAY_Init`, the two-step computation of `us_modulo`
in `uint32_t` arithmetic:
`us_modulo = 0xffffffff / us_ticks;`
`us_modulo += ((0xffffffff % us_ticks) + 1) / us_ticks;`. -/
def us_modulo_calc (us_ticks : Nat) : Nat :=
  let us_modulo := 0xffffffff / us_ticks
  add32 us_modulo (add32 (0xffffffff % us_ticks) 1 / us_ticks)

/-- The function `PIOS_DELAY_Init`.  `SYSCLK_Frequency` is the value
`RCC_GetClocksFreq` reports.  The macros `PIOS_DEBUG_Assert` and `PIOS_Assert`
are declared outside the sources at hand; `PIOS_Assert` always stops the
system when its test fails, and `debug` says whether `PIOS_DEBUG_Assert` is
compiled in (the spec describes it as a process-terminating assertion, which
is `debug = true`). -/
def PIOS_DELAY_Init (debug : Bool) (s : DelayState) (SYSCLK_Frequency : Nat) :
    Except Fault DelayState :=
  let us_ticks := SYSCLK_Frequency / 1000000
  if debug && !decide (us_ticks > 1) then Except.error Fault.assertTicks
  else if us_ticks = 0 then Except.error Fault.divideByZero
  else
    let us_modulo := us_modulo_calc us_ticks
    if !decide (us_modulo < 0x80000000) then Except.error Fault.assertModulo
    else
      Except.ok
        { us_ticks := us_ticks
          us_modulo := us_modulo
          DEMCR := s.DEMCR ||| CoreDebug_DEMCR_TRCENA_Msk
          DWT_CTRL := s.DWT_CTRL ||| DWT_CTRL_CYCCNTENA_Msk }

/-- The state before calibration used in the concrete examples: both statics
zero-initialised and both registers at their reset value. -/
def resetState : DelayState :=
  { us_ticks := 0, us_modulo := 0, DEMCR := 0, DWT_CTRL := 0 }

/-- The single widened division the spec allows in place of the two-step
computation (spec, design notes): `2^32 / ticks_per_microsecond` in unbounded
integers. -/
def us_modulo_wide (us_ticks : Nat) : Nat := 4294967296 / us_ticks

/-! ## PIOS_DELAY_WaituS and PIOS_DELAY_WaitmS -/

/-- The `for (;;)` loop of `PIOS_DELAY_WaituS` (lines 93-115).  The list holds
the values the successive reads of `DWT->CYCCNT` return; the loop variables
are `elapsed`, `last_count` and `uS`.  The result is `none` when the samples
run out before the `break`, otherwise the state and the samples not read. -/
def WaituS_loop (s : DelayState) :
    List Nat → Nat → Nat → Nat → Option (DelayState × List Nat)
  | [], _, _, _ => none
  | current_count :: CYCCNT, elapsed, last_count, uS =>
    /- turn on access to the DWT registers -/
    let s := { s with DEMCR := s.DEMCR ||| CoreDebug_DEMCR_TRCENA_Msk }
    /- measure the time elapsed since the last time we checked -/
    let elapsed := add32 elapsed (sub32 current_count last_count)
    let last_count := current_count
    /- convert to microseconds -/
    let elapsed_uS := elapsed / s.us_ticks
    if elapsed_uS ≥ uS then some (s, CYCCNT)
    else
      /- reduce the delay by the elapsed time (`elapsed_uS < uS`: no wrap),
         keep fractional microseconds for the next iteration -/
      WaituS_loop s CYCCNT (elapsed % s.us_ticks) last_count (uS - elapsed_uS)

/-- The function `PIOS_DELAY_WaituS`: the first sample initialises
`last_count`, the others feed the loop.  The C function returns 0 on every
path; the result here is the state and the samples not read, or `none` when
the samples run out before the loop exits. -/
def PIOS_DELAY_WaituS (s : DelayState) (uS : Nat) :
    List Nat → Option (DelayState × List Nat)
  | [] => none
  | last_count :: CYCCNT =>
    let s := { s with DEMCR := s.DEMCR ||| CoreDebug_DEMCR_TRCENA_Msk }
    WaituS_loop s CYCCNT 0 last_count uS

/-- The function `PIOS_DELAY_WaitmS`: `while (mS--) PIOS_DELAY_WaituS(1000);`. -/
def PIOS_DELAY_WaitmS (s : DelayState) :
    Nat → List Nat → Option (DelayState × List Nat)
  | 0, CYCCNT => some (s, CYCCNT)
  | mS + 1, CYCCNT =>
    match PIOS_DELAY_WaituS s 1000 CYCCNT with
    | none => none
    | some (s1, rest) => PIOS_DELAY_WaitmS s1 mS rest

/-- Ticks that elapse along a run of samples: the sum of the wraparound
differences between each sample and the one before it, starting from `last`,
as a natural number. -/
def ticksElapsed (last : Nat) : List Nat → Nat
  | [] => 0
  | c :: cs => sub32 c last + ticksElapsed c cs

/-! ## Queries -/

/-- The function `PIOS_DELAY_GetuS`, `CYCCNT` being the value its read of
`DWT->CYCCNT` returns. -/
def PIOS_DELAY_GetuS (s : DelayState) (CYCCNT : Nat) : DelayState × Nat :=
  let s := { s with DEMCR := s.DEMCR ||| CoreDebug_DEMCR_TRCENA_Msk }
  (s, CYCCNT / s.us_ticks)

/-- The function `PIOS_DELAY_GetuSSince`:
`(PIOS_DELAY_GetuS() + us_modulo - t) % us_modulo` in `uint32_t` arithmetic. -/
def PIOS_DELAY_GetuSSince (s : DelayState) (t : Nat) (CYCCNT : Nat) : DelayState × Nat :=
  let r := PIOS_DELAY_GetuS s CYCCNT
  (r.1, sub32 (add32 r.2 r.1.us_modulo) t % r.1.us_modulo)

/-- The function `PIOS_DELAY_GetRaw`. -/
def PIOS_DELAY_GetRaw (s : DelayState) (CYCCNT : Nat) : DelayState × Nat :=
  let s := { s with DEMCR := s.DEMCR ||| CoreDebug_DEMCR_TRCENA_Msk }
  (s, CYCCNT)

/-- The function `PIOS_DELAY_DiffuS2`: `diff = later - raw; diff / us_ticks`. -/
def PIOS_DELAY_DiffuS2 (s : DelayState) (raw later : Nat) : Nat :=
  let diff := sub32 later raw
  diff / s.us_ticks

/-- The function `PIOS_DELAY_DiffuS`. -/
def PIOS_DELAY_DiffuS (s : DelayState) (raw : Nat) (CYCCNT : Nat) : DelayState × Nat :=
  let s := { s with DEMCR := s.DEMCR ||| CoreDebug_DEMCR_TRCENA_Msk }
  (s, PIOS_DELAY_DiffuS2 s raw CYCCNT)

/-- The state a 168 MHz clock calibrates to, from `resetState`. -/
def state168 : DelayState :=
  { us_ticks := 168, us_modulo := 25565281, DEMCR := 16777216, DWT_CTRL := 1 }


/-- The spec's words for `wait_milliseconds(duration_ms)`: `wait_microseconds(1000)`
repeated `duration_ms` times, each invocation on the state and the samples the
one before it left; a run that does not return stays `none`. -/
def repeat_WaituS_1000 (duration_ms : Nat) (s : DelayState) (CYCCNT : List Nat) :
    Option (DelayState × List Nat) :=
  (fun r => r.bind fun p => PIOS_DELAY_WaituS p.1 1000 p.2)^[duration_ms] (some (s, CYCCNT))

/-- The naive reference of the wait loop: the wraparound differences are
summed in unbounded integers into `D`, and the loop is left at the first read
at which `D` reaches `target` ticks.  The result is the samples not read, or
`none` when the samples run out first. -/
def naiveWait_loop (target : Nat) : List Nat → Nat → Nat → Option (List Nat)
  | [], _, _ => none
  | current_count :: CYCCNT, D, last_count =>
    let D := D + sub32 current_count last_count
    if D ≥ target then some CYCCNT
    else naiveWait_loop target CYCCNT D current_count

/-- The values of the loop variables `(elapsed, uS)` at each loop head that
`WaituS_loop` reaches on the given samples: the head of the first pass, then
the head after each pass that did not `break`. -/
def WaituS_heads (s : DelayState) : List Nat → Nat → Nat → Nat → List (Nat × Nat)
  | [], elapsed, _, uS => [(elapsed, uS)]
  | current_count :: CYCCNT, elapsed, last_count, uS =>
    let elapsed1 := add32 elapsed (sub32 current_count last_count)
    let elapsed_uS := elapsed1 / s.us_ticks
    (elapsed, uS) ::
      if elapsed_uS ≥ uS then []
      else WaituS_heads s CYCCNT (elapsed1 % s.us_ticks) current_count (uS - elapsed_uS)

/-- Whether every wraparound difference between a sample and the one before
it, starting from `last`, lies between `lo` and `hi`. -/
def diffsWithin (lo hi : Nat) (last : Nat) : List Nat → Bool
  | [] => true
  | c :: cs => decide (lo ≤ sub32 c last) && decide (sub32 c last ≤ hi) && diffsWithin lo hi c cs

/-- The samples of a counter that holds `c` ticks at the first read and
advances by `step` ticks between consecutive reads: `n` reads, each the tick
count modulo `2^32`. -/
def steppedSamples (step : Nat) : Nat → Nat → List Nat
  | 0, _ => []
  | n + 1, c => c % U32 :: steppedSamples step n (c + step)

/-- The ticks that elapse inside one call of `PIOS_DELAY_WaituS`, from its
first read of the counter to its last, with the state and the samples the
call leaves; `none` when the call does not return on the samples. -/
def ticksInsideWaituS (s : DelayState) (uS : Nat) (CYCCNT : List Nat) :
    Option (Nat × DelayState × List Nat) :=
  match PIOS_DELAY_WaituS s uS CYCCNT with
  | none => none
  | some (s1, rest) =>
    match CYCCNT.take (CYCCNT.length - rest.length) with
    | [] => none
    | last_count :: used => some (ticksElapsed last_count used, s1, rest)

/-- The ticks that elapse inside `n` successive calls of
`PIOS_DELAY_WaituS(uS)`, summed over the calls, each call on the state and the
samples the one before left. -/
def ticksInsideRepeated (uS : Nat) : Nat → DelayState → List Nat →
    Option (Nat × DelayState × List Nat)
  | 0, s, CYCCNT => some (0, s, CYCCNT)
  | n + 1, s, CYCCNT =>
    match ticksInsideWaituS s uS CYCCNT with
    | none => none
    | some (ticks, s1, rest) =>
      match ticksInsideRepeated uS n s1 rest with
      | none => none
      | some (total, s2, rest2) => some (ticks + total, s2, rest2)

/-- The value of `CoreDebug->DEMCR` at each read of `DWT->CYCCNT` that the
loop of `PIOS_DELAY_WaituS` performs, in order: the loop of `WaituS_loop`,
with the register recorded at the read of line 99. -/
def WaituS_loop_DEMCR (s : DelayState) : List Nat → Nat → Nat → Nat → List Nat
  | [], _, _, _ => []
  | current_count :: CYCCNT, elapsed, last_count, uS =>
    let s := { s with DEMCR := s.DEMCR ||| CoreDebug_DEMCR_TRCENA_Msk }
    let elapsed := add32 elapsed (sub32 current_count last_count)
    let elapsed_uS := elapsed / s.us_ticks
    s.DEMCR ::
      if elapsed_uS ≥ uS then []
      else WaituS_loop_DEMCR s CYCCNT (elapsed % s.us_ticks) current_count (uS - elapsed_uS)

/-- The value of `CoreDebug->DEMCR` at each read of `DWT->CYCCNT` that
`PIOS_DELAY_WaituS` performs, in order: the read of line 91, then the reads of
the loop. -/
def PIOS_DELAY_WaituS_DEMCR (s : DelayState) (uS : Nat) : List Nat → List Nat
  | [] => []
  | last_count :: CYCCNT =>
    let s := { s with DEMCR := s.DEMCR ||| CoreDebug_DEMCR_TRCENA_Msk }
    s.DEMCR :: WaituS_loop_DEMCR s CYCCNT 0 last_count uS

/-! ## Arithmetic of the calibration -/

theorem add32_of_lt {a b : Nat} (h : a + b < U32) : add32 a b = a + b := by
  unfold add32
  exact Nat.mod_eq_of_lt h

theorem sub32_of_le {a b : Nat} (hb : b ≤ a) (ha : a < U32) : sub32 a b = a - b := by
  unfold sub32 U32 at *
  omega

theorem sub32_lt (a b : Nat) : sub32 a b < U32 := by
  unfold sub32
  exact Nat.mod_lt _ (by unfold U32; decide)

/-- For `2 ≤ us_ticks ≤ 0xffffffff` the two-step computation does not wrap
and equals `2^32 / us_ticks`. -/
theorem us_modulo_calc_eq {t : Nat} (h2 : 2 ≤ t) (h32 : t < U32) :
    us_modulo_calc t = U32 / t := by
  have ht : 0 < t := by omega
  have hr : 0xffffffff % t < t := Nat.mod_lt _ ht
  have hq : 0xffffffff / t ≤ 0x7fffffff := by
    rw [Nat.div_le_iff_le_mul_add_pred ht]
    omega
  have ha : (0xffffffff % t + 1) / t ≤ 1 := by
    rw [Nat.div_le_iff_le_mul_add_pred ht]
    omega
  have hsplit : U32 = t * (0xffffffff / t) + (0xffffffff % t + 1) := by
    have := Nat.div_add_mod 0xffffffff t
    unfold U32
    omega
  unfold U32 at h32
  unfold us_modulo_calc
  simp only []
  have h1 : add32 (0xffffffff % t) 1 = 0xffffffff % t + 1 :=
    add32_of_lt (by unfold U32; omega)
  rw [h1, add32_of_lt (by unfold U32; omega)]
  conv_rhs => rw [hsplit]
  rw [Nat.mul_add_div ht]

/-- From three ticks per microsecond on, the modulus is under half the range. -/
theorem us_modulo_calc_lt_half {t : Nat} (h3 : 3 ≤ t) (h32 : t < U32) :
    us_modulo_calc t < 0x80000000 := by
  rw [us_modulo_calc_eq (by omega) h32, Nat.div_lt_iff_lt_mul (by omega)]
  unfold U32
  omega

/-- From three ticks per microsecond on, `PIOS_DELAY_Init` returns, with the
calibration below and both enable bits set. -/
theorem init_ok {debug : Bool} {s : DelayState} {f : Nat}
    (h3 : 3 ≤ f / 1000000) (h32 : f / 1000000 < U32) :
    PIOS_DELAY_Init debug s f = Except.ok
      { us_ticks := f / 1000000
        us_modulo := U32 / (f / 1000000)
        DEMCR := s.DEMCR ||| CoreDebug_DEMCR_TRCENA_Msk
        DWT_CTRL := s.DWT_CTRL ||| DWT_CTRL_CYCCNTENA_Msk } := by
  have hm := us_modulo_calc_lt_half h3 h32
  have he := us_modulo_calc_eq (show 2 ≤ f / 1000000 by omega) h32
  have h1 : 1 < f / 1000000 := by omega
  have h0 : f / 1000000 ≠ 0 := by omega
  rw [he] at hm
  simp [PIOS_DELAY_Init, h1, h0, hm, he]

/-- What a returning `PIOS_DELAY_Init` has checked, whether or not the debug
assertion is compiled in. -/
theorem init_ok_inv {debug : Bool} {s s1 : DelayState} {f : Nat}
    (h : PIOS_DELAY_Init debug s f = Except.ok s1) :
    s1.us_ticks = f / 1000000 ∧ s1.us_ticks ≠ 0 ∧
      s1.us_modulo = us_modulo_calc s1.us_ticks ∧ s1.us_modulo < 0x80000000 ∧
      (debug = true → 1 < s1.us_ticks) := by
  unfold PIOS_DELAY_Init at h
  simp only [] at h
  split at h
  · cases h
  · split at h
    · cases h
    · split at h
      · cases h
      · rename_i hd h0 hm
        injection h with h
        subst h
        simp at hd hm
        refine ⟨rfl, h0, rfl, hm, ?_⟩
        intro hdb
        exact hd hdb

/-- After a calibration with the debug assertion compiled in, and a 32-bit
clock frequency: at least three ticks per microsecond, and the modulus is
`2^32 / us_ticks`. -/
theorem init_true_inv {s s1 : DelayState} {f : Nat} (hf : f < U32)
    (h : PIOS_DELAY_Init true s f = Except.ok s1) :
    3 ≤ s1.us_ticks ∧ s1.us_ticks < U32 ∧ s1.us_modulo = U32 / s1.us_ticks ∧
      s1.us_modulo < 0x80000000 := by
  obtain ⟨ht, _, hm, hlt, hd⟩ := init_ok_inv h
  have h1 := hd rfl
  have h32 : s1.us_ticks < U32 := by
    rw [ht]
    exact lt_of_le_of_lt (Nat.div_le_self _ _) hf
  have he := us_modulo_calc_eq (show 2 ≤ s1.us_ticks by omega) h32
  rw [he] at hm
  refine ⟨?_, h32, hm, hlt⟩
  by_contra hc
  have h2 : s1.us_ticks = 2 := by omega
  rw [hm, h2] at hlt
  unfold U32 at hlt
  omega

/-! ## Calibration: C1 - C4 -/

/-- C1 (as stated, refuted): at the smallest frequency the claim names,
2,000,000 Hz, `us_ticks` is 2, the modulus is exactly `0x80000000`, and
`PIOS_Assert(us_modulo < 0x80000000)` fires, with the debug assertion
compiled in or not. -/
theorem C1_counterexample_2MHz :
    2000000 ≥ 2000000 ∧ 2000000 < U32 ∧ us_modulo_calc (2000000 / 1000000) = 0x80000000 ∧
      PIOS_DELAY_Init true resetState 2000000 = Except.error Fault.assertModulo ∧
      PIOS_DELAY_Init false resetState 2000000 = Except.error Fault.assertModulo := by
  refine ⟨by decide, by decide, rfl, rfl, rfl⟩

/-- C1 (amended): for every 32-bit clock frequency `f ≥ 2,000,000`,
`us_ticks = f / 1,000,000 ≥ 2`, so the assertion `us_ticks > 1` does not fire;
from `f ≥ 3,000,000` on calibration succeeds (neither assertion fires) and
stores `us_ticks = f / 1,000,000`; for `2,000,000 ≤ f < 3,000,000` the
half-range assertion fires. -/
theorem C1_init_succeeds_from_3MHz (debug : Bool) (s : DelayState) (f : Nat)
    (h2 : 2000000 ≤ f) (h32 : f < U32) :
    2 ≤ f / 1000000 ∧
      (3000000 ≤ f → ∃ s1, PIOS_DELAY_Init debug s f = Except.ok s1 ∧
        s1.us_ticks = f / 1000000) ∧
      (f < 3000000 → PIOS_DELAY_Init debug s f = Except.error Fault.assertModulo) := by
  refine ⟨by omega, ?_, ?_⟩
  · intro h3
    have h3t : 3 ≤ f / 1000000 := by omega
    have hlt : f / 1000000 < U32 := lt_of_le_of_lt (Nat.div_le_self _ _) h32
    exact ⟨_, init_ok h3t hlt, rfl⟩
  · intro hlt
    have ht : f / 1000000 = 2 := by omega
    have hc : us_modulo_calc 2 = 2147483648 := rfl
    simp [PIOS_DELAY_Init, ht, hc]

/-- Witness of C1 (amended) at 168 MHz and at 2 MHz. -/
theorem C1_init_succeeds_from_3MHz_witness :
    (∃ s1, PIOS_DELAY_Init true resetState 168000000 = Except.ok s1 ∧ s1.us_ticks = 168) ∧
      PIOS_DELAY_Init true resetState 2000000 = Except.error Fault.assertModulo :=
  ⟨(C1_init_succeeds_from_3MHz true resetState 168000000 (by decide) (by decide)).2.1
      (by decide),
    (C1_init_succeeds_from_3MHz true resetState 2000000 (by decide) (by decide)).2.2
      (by decide)⟩

/-- C2: for every clock frequency `f < 2,000,000`, `us_ticks = f / 1,000,000`
is 0 or 1, the assertion `us_ticks > 1` fires, and `PIOS_DELAY_Init` produces
no calibrated state. -/
theorem C2_init_fails_below_2MHz (s : DelayState) (f : Nat) (h : f < 2000000) :
    (f / 1000000 = 0 ∨ f / 1000000 = 1) ∧
      PIOS_DELAY_Init true s f = Except.error Fault.assertTicks ∧
      ∀ s1, PIOS_DELAY_Init true s f ≠ Except.ok s1 := by
  have ht : ¬ 1 < f / 1000000 := by omega
  have he : PIOS_DELAY_Init true s f = Except.error Fault.assertTicks := by
    simp [PIOS_DELAY_Init, ht]
  refine ⟨by omega, he, ?_⟩
  intro s1 h1
  rw [he] at h1
  cases h1

/-- Witness of C2 at 1,999,999 Hz. -/
theorem C2_init_fails_below_2MHz_witness :
    PIOS_DELAY_Init true resetState 1999999 = Except.error Fault.assertTicks :=
  (C2_init_fails_below_2MHz resetState 1999999 (by decide)).2.1

/-- C3: for `2 ≤ us_ticks ≤ 2^32 - 1` the two-step `uint32_t` computation of
the modulus equals the single division `2^32 / us_ticks` in unbounded
integers, and each intermediate value, taken without reduction, is at most
`0xffffffff`: the quotient, the remainder plus one, its quotient, and the
sum. -/
theorem C3_two_step_modulo_is_wide_division (tpu : Nat) (h2 : 2 ≤ tpu)
    (h32 : tpu ≤ 4294967295) :
    us_modulo_calc tpu = us_modulo_wide tpu ∧
      0xffffffff / tpu ≤ 0xffffffff ∧
      0xffffffff % tpu + 1 ≤ 0xffffffff ∧
      (0xffffffff % tpu + 1) / tpu ≤ 0xffffffff ∧
      0xffffffff / tpu + (0xffffffff % tpu + 1) / tpu ≤ 0xffffffff := by
  have ht : 0 < tpu := by omega
  have hr : 0xffffffff % tpu < tpu := Nat.mod_lt _ ht
  have hq : 0xffffffff / tpu ≤ 0x7fffffff := by
    rw [Nat.div_le_iff_le_mul_add_pred ht]
    omega
  have ha : (0xffffffff % tpu + 1) / tpu ≤ 1 := by
    rw [Nat.div_le_iff_le_mul_add_pred ht]
    omega
  refine ⟨?_, by omega, by omega, by omega, by omega⟩
  rw [us_modulo_calc_eq h2 (by unfold U32; omega)]
  rfl

/-- Witness of C3 at 168 ticks per microsecond. -/
theorem C3_two_step_modulo_is_wide_division_witness :
    us_modulo_calc 168 = us_modulo_wide 168 ∧ us_modulo_calc 168 = 25565281 :=
  ⟨(C3_two_step_modulo_is_wide_division 168 (by decide) (by decide)).1, rfl⟩

/-- C4: every state a calibration produces (debug assertion compiled in, as
the spec has it) has `us_ticks ≥ 2` and `us_modulo < 2^31`; the bound on the
modulus holds also without the debug assertion; and a clock frequency whose
derived modulus is `≥ 2^31` produces no state. -/
theorem C4_calibrated_state_bounds (debug : Bool) (s : DelayState) (f : Nat) :
    (∀ s1, PIOS_DELAY_Init true s f = Except.ok s1 →
        2 ≤ s1.us_ticks ∧ s1.us_modulo < 2147483648) ∧
      (∀ s1, PIOS_DELAY_Init debug s f = Except.ok s1 → s1.us_modulo < 2147483648) ∧
      (2147483648 ≤ us_modulo_calc (f / 1000000) →
        ∀ s1, PIOS_DELAY_Init debug s f ≠ Except.ok s1) := by
  refine ⟨?_, ?_, ?_⟩
  · intro s1 h
    obtain ⟨_, _, _, hm, hd⟩ := init_ok_inv h
    exact ⟨hd rfl, hm⟩
  · intro s1 h
    exact (init_ok_inv h).2.2.2.1
  · intro hge s1 h
    obtain ⟨ht, _, hm, hlt, _⟩ := init_ok_inv h
    rw [hm, ht] at hlt
    omega

/-- Witness of C4: the state of a 168 MHz clock, and the refusal at 2 MHz. -/
theorem C4_calibrated_state_bounds_witness :
    (2 ≤ state168.us_ticks ∧ state168.us_modulo < 2147483648) ∧
      ∀ s1, PIOS_DELAY_Init true resetState 2000000 ≠ Except.ok s1 :=
  ⟨(C4_calibrated_state_bounds true resetState 168000000).1 state168 rfl,
    (C4_calibrated_state_bounds true resetState 2000000).2.2 (by decide)⟩

/-! ## The busy-wait: C5 -/

/-- The calibration is not touched by the wait loop. -/
theorem WaituS_loop_frame (CYCCNT : List Nat) :
    ∀ (s : DelayState) (elapsed last_count uS : Nat) (s1 : DelayState) (rest : List Nat),
      WaituS_loop s CYCCNT elapsed last_count uS = some (s1, rest) →
      s1.us_ticks = s.us_ticks ∧ s1.us_modulo = s.us_modulo := by
  induction CYCCNT with
  | nil =>
    intro s elapsed last_count uS s1 rest h
    simp [WaituS_loop] at h
  | cons c cs ih =>
    intro s elapsed last_count uS s1 rest h
    unfold WaituS_loop at h
    simp only [] at h
    split at h
    · injection h with h
      injection h with h1 h2
      subst h1
      exact ⟨rfl, rfl⟩
    · exact ih { s with DEMCR := s.DEMCR ||| CoreDebug_DEMCR_TRCENA_Msk } _ _ _ _ _ h

/-- Invariant of the wait loop.  When the loop exits, the carried ticks plus
the ticks that elapsed over the samples it read cover the microseconds still
owed on entry. -/
theorem WaituS_loop_ticks (CYCCNT : List Nat) :
    ∀ (s : DelayState) (elapsed last_count uS : Nat) (s1 : DelayState) (rest : List Nat),
      WaituS_loop s CYCCNT elapsed last_count uS = some (s1, rest) →
      ∃ used, CYCCNT = used ++ rest ∧
        uS * s.us_ticks ≤ elapsed + ticksElapsed last_count used := by
  induction CYCCNT with
  | nil =>
    intro s elapsed last_count uS s1 rest h
    simp [WaituS_loop] at h
  | cons c cs ih =>
    intro s elapsed last_count uS s1 rest h
    unfold WaituS_loop at h
    simp only [] at h
    have hle : add32 elapsed (sub32 c last_count) ≤ elapsed + sub32 c last_count :=
      Nat.mod_le _ _
    have hdm := Nat.div_add_mod (add32 elapsed (sub32 c last_count)) s.us_ticks
    split at h
    · rename_i hge
      injection h with h
      injection h with h1 h2
      subst h2
      refine ⟨[c], rfl, ?_⟩
      have h3 : uS * s.us_ticks ≤
          add32 elapsed (sub32 c last_count) / s.us_ticks * s.us_ticks :=
        Nat.mul_le_mul_right _ hge
      have h4 := Nat.div_mul_le_self (add32 elapsed (sub32 c last_count)) s.us_ticks
      simp only [ticksElapsed]
      omega
    · rename_i hlt
      obtain ⟨used, hu, hb⟩ :=
        ih { s with DEMCR := s.DEMCR ||| CoreDebug_DEMCR_TRCENA_Msk } _ _ _ _ _ h
      refine ⟨c :: used, by rw [hu]; rfl, ?_⟩
      simp only [] at hb
      rw [Nat.sub_mul] at hb
      have h5 : add32 elapsed (sub32 c last_count) / s.us_ticks * s.us_ticks ≤
          uS * s.us_ticks := Nat.mul_le_mul_right _ (by omega)
      rw [Nat.mul_comm s.us_ticks] at hdm
      simp only [ticksElapsed]
      omega

/-- The ticks over a run of samples do not decrease when samples are added. -/
theorem ticksElapsed_append_ge (xs ys : List Nat) :
    ∀ a, ticksElapsed a xs ≤ ticksElapsed a (xs ++ ys) := by
  induction xs with
  | nil => intro a; exact Nat.zero_le _
  | cons x xs ih =>
    intro a
    simp only [ticksElapsed, List.cons_append]
    exact Nat.add_le_add_left (ih x) _

/-- C5: whenever `PIOS_DELAY_WaituS` returns, the sum of the wraparound
differences `(current_count - last_count) mod 2^32` over the loop iterations
it executed, as a natural number, is at least `uS * us_ticks`: it never
returns before the requested duration has elapsed on the counter. -/
theorem C5_wait_not_early (s : DelayState) (uS : Nat) (CYCCNT : List Nat)
    (s1 : DelayState) (rest : List Nat) (_htpu : 1 ≤ s.us_ticks)
    (h : PIOS_DELAY_WaituS s uS CYCCNT = some (s1, rest)) :
    ∃ last_count used, CYCCNT = last_count :: (used ++ rest) ∧
      uS * s.us_ticks ≤ ticksElapsed last_count used := by
  cases CYCCNT with
  | nil => simp [PIOS_DELAY_WaituS] at h
  | cons c0 cs =>
    unfold PIOS_DELAY_WaituS at h
    obtain ⟨used, hu, hb⟩ := WaituS_loop_ticks cs _ _ _ _ _ _ h
    refine ⟨c0, used, by rw [hu], ?_⟩
    simpa using hb

/-- Witness of C5: 168 ticks per microsecond, 500 microseconds, three loop
iterations across a wrap of the counter, one sample left unread. -/
theorem C5_wait_not_early_witness :
    ∃ last_count used, [4294883376, 4294883400, 79, 80, 5] = last_count :: (used ++ [5]) ∧
      500 * state168.us_ticks ≤ ticksElapsed last_count used :=
  C5_wait_not_early state168 500 [4294883376, 4294883400, 79, 80, 5] state168 [5]
    (by decide) rfl

/-! ## Raw differences: C6 -/

/-- C6: for raw samples `a` and tick intervals `d < 2^32`, with
`b = (a + d) mod 2^32`, `PIOS_DELAY_DiffuS2 a b` is `d / us_ticks`; and for
all raw samples `a`, `b` it is `((b - a) mod 2^32) / us_ticks`, the difference
being taken in the integers, `b < a` included. -/
theorem C6_diff_raw_wraparound (s : DelayState) (a d b : Nat) (ha : a < U32) (hd : d < U32)
    (hb : b < U32) :
    PIOS_DELAY_DiffuS2 s a ((a + d) % U32) = d / s.us_ticks ∧
      (PIOS_DELAY_DiffuS2 s a b : Int) =
        (((b : Int) - (a : Int)) % 4294967296) / (s.us_ticks : Int) := by
  unfold U32 at ha hd hb
  constructor
  · have h : sub32 ((a + d) % U32) a = d := by
      unfold sub32 U32
      omega
    simp only [PIOS_DELAY_DiffuS2, h]
  · have h : ((sub32 b a : Nat) : Int) = ((b : Int) - (a : Int)) % 4294967296 := by
      unfold sub32 U32
      omega
    simp only [PIOS_DELAY_DiffuS2]
    rw [← h]
    norm_cast

/-- Witness of C6: 168 ticks per microsecond, a sample 1000 ticks before the
wrap, an interval of 84000 ticks, and the later sample 83000, numerically
below the earlier one. -/
theorem C6_diff_raw_wraparound_witness :
    PIOS_DELAY_DiffuS2 state168 4294966296 ((4294966296 + 84000) % U32) = 84000 / 168 ∧
      (PIOS_DELAY_DiffuS2 state168 4294966296 83000 : Int) =
        (((83000 : Nat) : Int) - ((4294966296 : Nat) : Int)) % 4294967296 / ((168 : Nat) : Int) :=
  C6_diff_raw_wraparound state168 4294966296 84000 83000 (by decide) (by decide) (by decide)

/-! ## The microsecond counter and its modulus: C8 - C10 -/

/-- A microsecond value is at most `0xffffffff / us_ticks`, itself at most
the modulus of a calibrated state. -/
theorem GetuS_le_modulo {s s0 : DelayState} {f : Nat} (hf : f < U32)
    (hs : PIOS_DELAY_Init true s0 f = Except.ok s) :
    0xffffffff / s.us_ticks ≤ s.us_modulo ∧ s.us_modulo < 0x80000000 ∧
      0 < s.us_modulo ∧ 3 ≤ s.us_ticks := by
  obtain ⟨h3, h32, hm, hlt⟩ := init_true_inv hf hs
  refine ⟨?_, hlt, ?_, h3⟩
  · rw [hm]
    exact Nat.div_le_div_right (by unfold U32; decide)
  · rw [hm]
    exact Nat.div_pos (le_of_lt h32) (by omega)

/-- C8 (as stated, refuted): at 168 MHz the calibration gives
`us_modulo = 25565281`, and with the counter at `0xffffffff`
`PIOS_DELAY_GetuS` returns 25565281 as well, which is not below the modulus. -/
theorem C8_counterexample_168MHz :
    PIOS_DELAY_Init true resetState 168000000 = Except.ok state168 ∧
      4294967295 < U32 ∧
      ¬ ((PIOS_DELAY_GetuS state168 4294967295).2 < state168.us_modulo) := by
  refine ⟨rfl, by decide, by decide⟩

/-- C8 (amended): after a successful calibration, for every 32-bit counter
value `c`, `c / us_ticks ≤ us_modulo`; it is strictly below the modulus
exactly when `c < us_modulo * us_ticks`. -/
theorem C8_getuS_le_modulo (s0 s : DelayState) (f c : Nat) (hf : f < U32)
    (hs : PIOS_DELAY_Init true s0 f = Except.ok s) (hc : c < U32) :
    (PIOS_DELAY_GetuS s c).2 ≤ s.us_modulo ∧
      ((PIOS_DELAY_GetuS s c).2 < s.us_modulo ↔ c < s.us_modulo * s.us_ticks) := by
  obtain ⟨hq, _, _, h3⟩ := GetuS_le_modulo hf hs
  have hcq : c / s.us_ticks ≤ 0xffffffff / s.us_ticks :=
    Nat.div_le_div_right (by unfold U32 at hc; omega)
  simp only [PIOS_DELAY_GetuS]
  refine ⟨le_trans hcq hq, ?_⟩
  exact Nat.div_lt_iff_lt_mul (by omega)

/-- Witness of C8 (amended): 168 MHz, counter at `0xffffffff`. -/
theorem C8_getuS_le_modulo_witness :
    (PIOS_DELAY_GetuS state168 4294967295).2 ≤ state168.us_modulo ∧
      ((PIOS_DELAY_GetuS state168 4294967295).2 < state168.us_modulo ↔
        4294967295 < state168.us_modulo * state168.us_ticks) :=
  C8_getuS_le_modulo resetState state168 168000000 4294967295 (by decide) rfl (by decide)

/-- C9: after a successful calibration, for every counter value `c` and every
`past_us ≤ 0xffffffff / us_ticks`, the sum `now + us_modulo` stays below
`2^32`, `past_us` is at most that sum, and `PIOS_DELAY_GetuSSince` returns the
integer value `(c / us_ticks + us_modulo - past_us) mod us_modulo`. -/
theorem C9_getuSSince_exact (s0 s : DelayState) (f c past_us : Nat) (hf : f < U32)
    (hs : PIOS_DELAY_Init true s0 f = Except.ok s) (hc : c < U32)
    (hp : past_us ≤ 0xffffffff / s.us_ticks) :
    (PIOS_DELAY_GetuS s c).2 + s.us_modulo < U32 ∧
      past_us ≤ (PIOS_DELAY_GetuS s c).2 + s.us_modulo ∧
      ((PIOS_DELAY_GetuSSince s past_us c).2 : Int) =
        (((c / s.us_ticks : Nat) : Int) + (s.us_modulo : Int) - (past_us : Int)) %
          (s.us_modulo : Int) := by
  obtain ⟨hq, hlt, _, _⟩ := GetuS_le_modulo hf hs
  have hcq : c / s.us_ticks ≤ 0xffffffff / s.us_ticks :=
    Nat.div_le_div_right (by unfold U32 at hc; omega)
  simp only [PIOS_DELAY_GetuS, PIOS_DELAY_GetuSSince]
  generalize c / s.us_ticks = now at hcq ⊢
  generalize 0xffffffff / s.us_ticks = q at hq hcq hp
  have hadd : now + s.us_modulo < U32 := by unfold U32; omega
  refine ⟨hadd, by omega, ?_⟩
  rw [add32_of_lt hadd, sub32_of_le (by omega) hadd]
  have hsub : ((now + s.us_modulo - past_us : Nat) : Int) =
      (now : Int) + (s.us_modulo : Int) - (past_us : Int) := by
    omega
  rw [← hsub]
  norm_cast

/-- Witness of C9: 168 MHz, a sample taken 83920 ticks before the wrap and a
query 80 ticks after it. -/
theorem C9_getuSSince_exact_witness :
    (PIOS_DELAY_GetuS state168 80).2 + state168.us_modulo < U32 ∧
      25564782 ≤ (PIOS_DELAY_GetuS state168 80).2 + state168.us_modulo ∧
      ((PIOS_DELAY_GetuSSince state168 25564782 80).2 : Int) =
        (((80 / state168.us_ticks : Nat) : Int) + (state168.us_modulo : Int) -
          ((25564782 : Nat) : Int)) % (state168.us_modulo : Int) :=
  C9_getuSSince_exact resetState state168 168000000 80 25564782 (by decide) rfl
    (by decide) (by decide)

/-- C10: after a successful calibration, when the microsecond value `now`
read at the query is below the microsecond value `past` captured earlier,
`PIOS_DELAY_GetuSSince past` returns `now + us_modulo - past`, a value below
`us_modulo`, and not the wrapped 32-bit difference `now - past`. -/
theorem C10_getuSSince_after_wrap (s0 s : DelayState) (f cn cp : Nat) (hf : f < U32)
    (hs : PIOS_DELAY_Init true s0 f = Except.ok s) (hcn : cn < U32) (hcp : cp < U32)
    (hwrap : (PIOS_DELAY_GetuS s cn).2 < (PIOS_DELAY_GetuS s cp).2) :
    (PIOS_DELAY_GetuSSince s (PIOS_DELAY_GetuS s cp).2 cn).2 + (PIOS_DELAY_GetuS s cp).2 =
        (PIOS_DELAY_GetuS s cn).2 + s.us_modulo ∧
      (PIOS_DELAY_GetuSSince s (PIOS_DELAY_GetuS s cp).2 cn).2 < s.us_modulo ∧
      (PIOS_DELAY_GetuSSince s (PIOS_DELAY_GetuS s cp).2 cn).2 ≠
        sub32 (PIOS_DELAY_GetuS s cn).2 (PIOS_DELAY_GetuS s cp).2 := by
  obtain ⟨hq, hlt, _, _⟩ := GetuS_le_modulo hf hs
  have hnq : cn / s.us_ticks ≤ 0xffffffff / s.us_ticks :=
    Nat.div_le_div_right (by unfold U32 at hcn; omega)
  have hpq : cp / s.us_ticks ≤ 0xffffffff / s.us_ticks :=
    Nat.div_le_div_right (by unfold U32 at hcp; omega)
  simp only [PIOS_DELAY_GetuS, PIOS_DELAY_GetuSSince] at hwrap ⊢
  generalize cn / s.us_ticks = now at hnq hwrap ⊢
  generalize cp / s.us_ticks = past at hpq hwrap ⊢
  generalize 0xffffffff / s.us_ticks = q at hq hnq hpq
  have hadd : now + s.us_modulo < U32 := by unfold U32; omega
  rw [add32_of_lt hadd, sub32_of_le (by omega) hadd]
  have hr : now + s.us_modulo - past < s.us_modulo := by omega
  rw [Nat.mod_eq_of_lt hr]
  refine ⟨by omega, hr, ?_⟩
  unfold sub32 U32
  omega

/-- Witness of C10: 168 MHz, `past` sampled 83920 ticks before the wrap and
`now` 80 ticks after it. -/
theorem C10_getuSSince_after_wrap_witness :
    (PIOS_DELAY_GetuSSince state168 (PIOS_DELAY_GetuS state168 4294883376).2 80).2 +
          (PIOS_DELAY_GetuS state168 4294883376).2 =
        (PIOS_DELAY_GetuS state168 80).2 + state168.us_modulo ∧
      (PIOS_DELAY_GetuSSince state168 (PIOS_DELAY_GetuS state168 4294883376).2 80).2 <
        state168.us_modulo ∧
      (PIOS_DELAY_GetuSSince state168 (PIOS_DELAY_GetuS state168 4294883376).2 80).2 ≠
        sub32 (PIOS_DELAY_GetuS state168 80).2 (PIOS_DELAY_GetuS state168 4294883376).2 :=
  C10_getuSSince_after_wrap resetState state168 168000000 80 4294883376 (by decide) rfl
    (by decide) (by decide) (by decide)

/-! ## Sample, wait, query: C7 -/

/-- The calibration is not touched by `PIOS_DELAY_WaituS`. -/
theorem WaituS_frame {s s1 : DelayState} {uS : Nat} {CYCCNT rest : List Nat}
    (h : PIOS_DELAY_WaituS s uS CYCCNT = some (s1, rest)) :
    s1.us_ticks = s.us_ticks ∧ s1.us_modulo = s.us_modulo := by
  cases CYCCNT with
  | nil => simp [PIOS_DELAY_WaituS] at h
  | cons c0 cs =>
    have h2 : WaituS_loop { s with DEMCR := s.DEMCR ||| CoreDebug_DEMCR_TRCENA_Msk }
        cs 0 c0 uS = some (s1, rest) := h
    have h3 := WaituS_loop_frame cs _ _ _ _ _ _ h2
    exact h3

/-- Whenever `PIOS_DELAY_WaituS` returns, the samples it read are its first
sample and the samples of the loop iterations, and the ticks over the latter
cover the request. -/
theorem WaituS_ticks {s s1 : DelayState} {uS : Nat} {CYCCNT rest : List Nat}
    (h : PIOS_DELAY_WaituS s uS CYCCNT = some (s1, rest)) :
    ∃ last_count used, CYCCNT = last_count :: (used ++ rest) ∧
      uS * s.us_ticks ≤ ticksElapsed last_count used := by
  cases CYCCNT with
  | nil => simp [PIOS_DELAY_WaituS] at h
  | cons c0 cs =>
    unfold PIOS_DELAY_WaituS at h
    obtain ⟨used, hu, hb⟩ := WaituS_loop_ticks cs _ _ _ _ _ _ h
    refine ⟨c0, used, by rw [hu], ?_⟩
    simpa using hb

/-- The last of a run of 32-bit samples is the first sample advanced by the
ticks elapsed over the run, modulo `2^32`. -/
theorem ticksElapsed_last (xs : List Nat) (cf : Nat) (hcf : cf < U32) :
    ∀ a, a < U32 → (∀ x ∈ xs, x < U32) →
      (a + ticksElapsed a (xs ++ [cf])) % U32 = cf := by
  induction xs with
  | nil =>
    intro a ha _
    simp only [List.nil_append, ticksElapsed, sub32]
    unfold U32 at *
    omega
  | cons x xs ih =>
    intro a ha hxs
    have hx : x < U32 := hxs x (List.mem_cons_self _ _)
    have hrec := ih x hx (fun y hy => hxs y (List.mem_cons_of_mem _ hy))
    simp only [List.cons_append, ticksElapsed, sub32]
    generalize ticksElapsed x (xs ++ [cf]) = T at hrec ⊢
    unfold U32 at *
    omega

/-- Arithmetic of the 168 MHz scenario: the query `(now + 25565281 - t) %
25565281` in 32-bit arithmetic, when between 84000 and `2^31` ticks separate
the counter value `c0` of the first sample from the counter value `cf` of
the query. -/
theorem since_168_arith (c0 cf T : Nat) (hc0 : c0 < U32)
    (hlast : (c0 + T) % U32 = cf) (hge : 84000 ≤ T) (htot : T ≤ 2147483648) :
    499 ≤ sub32 (add32 (cf / 168) 25565281) (c0 / 168) % 25565281 ∧
      (c0 + T < U32 → 500 ≤ sub32 (add32 (cf / 168) 25565281) (c0 / 168) % 25565281) := by
  have hcf : cf < U32 := by
    rw [← hlast]
    exact Nat.mod_lt _ (by unfold U32; decide)
  unfold U32 at hc0 hcf hlast
  have hn : cf / 168 ≤ 25565281 := by omega
  have ht : c0 / 168 ≤ 25565281 := by omega
  have hadd : cf / 168 + 25565281 < U32 := by unfold U32; omega
  rw [add32_of_lt hadd, sub32_of_le (by omega) hadd]
  by_cases hwrap : c0 + T < 4294967296
  · have hcf2 : cf = c0 + T := by omega
    have hd : c0 / 168 + 500 ≤ cf / 168 := by omega
    have hu : cf / 168 ≤ c0 / 168 + 12782642 := by omega
    generalize cf / 168 = n at hn hd hu hadd ⊢
    generalize c0 / 168 = t at ht hd hu ⊢
    have hr : (n + 25565281 - t) % 25565281 = n - t := by
      have h1 : n + 25565281 - t = (n - t) + 25565281 := by omega
      rw [h1, Nat.add_mod_right, Nat.mod_eq_of_lt (by omega)]
    rw [hr]
    unfold U32
    omega
  · have hcf2 : cf + 4294967296 = c0 + T := by omega
    have hd : c0 / 168 + 499 ≤ cf / 168 + 25565281 := by omega
    have hu : cf / 168 < c0 / 168 := by omega
    generalize cf / 168 = n at hn hd hu hadd ⊢
    generalize c0 / 168 = t at ht hd hu ⊢
    rw [Nat.mod_eq_of_lt (by omega)]
    unfold U32
    omega

/-- C7 (as stated, refuted): 168 MHz; the first sample is taken 83920 ticks
before the counter wraps, the wait starts at once and its single loop
iteration reads the counter 84000 ticks later (80 after the wrap), and the
final query reads the same value.  84000 ticks elapse in total, the wait
returns, and `PIOS_DELAY_GetuSSince` reports 499. -/
theorem C7_counterexample_wrap :
    PIOS_DELAY_Init true resetState 168000000 = Except.ok state168 ∧
      PIOS_DELAY_WaituS (PIOS_DELAY_GetuS state168 4294883376).1 500 [4294883376, 80] =
        some (state168, []) ∧
      ticksElapsed 4294883376 ([4294883376, 80] ++ [80]) = 84000 ∧
      (PIOS_DELAY_GetuSSince state168 (PIOS_DELAY_GetuS state168 4294883376).2 80).2 = 499 ∧
      ¬ (500 ≤ (PIOS_DELAY_GetuSSince state168 (PIOS_DELAY_GetuS state168 4294883376).2 80).2) := by
  refine ⟨rfl, rfl, rfl, rfl, by decide⟩

/-- C7 (amended): with a 168 MHz clock, for every initial counter value and
all 32-bit counter reads over which at most `2^31` ticks elapse between the
first sample and the final query: after `t = PIOS_DELAY_GetuS()`, a
`PIOS_DELAY_WaituS(500)` that returns, and then `PIOS_DELAY_GetuSSince(t)`, the
result is at least 499, and at least 500 when the counter does not wrap
between the first sample and the final query. -/
theorem C7_sample_wait_query_168MHz (s0 s s1 : DelayState) (c0 cf : Nat)
    (CYCCNT : List Nat)
    (hs : PIOS_DELAY_Init true s0 168000000 = Except.ok s)
    (hc0 : c0 < U32) (hcs : ∀ c ∈ CYCCNT, c < U32) (hcf : cf < U32)
    (hw : PIOS_DELAY_WaituS (PIOS_DELAY_GetuS s c0).1 500 CYCCNT = some (s1, []))
    (htot : ticksElapsed c0 (CYCCNT ++ [cf]) ≤ 2147483648) :
    499 ≤ (PIOS_DELAY_GetuSSince s1 (PIOS_DELAY_GetuS s c0).2 cf).2 ∧
      (c0 + ticksElapsed c0 (CYCCNT ++ [cf]) < U32 →
        500 ≤ (PIOS_DELAY_GetuSSince s1 (PIOS_DELAY_GetuS s c0).2 cf).2) := by
  have hinit := init_ok_inv hs
  have ht : s.us_ticks = 168 := by rw [hinit.1]
  have hm : s.us_modulo = 25565281 := by rw [hinit.2.2.1, ht]; rfl
  obtain ⟨ht1, hm1⟩ := WaituS_frame hw
  simp only [PIOS_DELAY_GetuS] at ht1 hm1
  rw [ht] at ht1
  rw [hm] at hm1
  obtain ⟨last_count, used, hu, hb⟩ := WaituS_ticks hw
  simp only [PIOS_DELAY_GetuS, ht, List.append_nil] at hb
  have hlast := ticksElapsed_last CYCCNT cf hcf c0 hc0 hcs
  have hge : 84000 ≤ ticksElapsed c0 (CYCCNT ++ [cf]) := by
    have h1 := ticksElapsed_append_ge CYCCNT [cf] c0
    have h2 : ticksElapsed last_count used ≤ ticksElapsed c0 CYCCNT := by
      rw [hu, List.append_nil]
      simp only [ticksElapsed]
      exact Nat.le_add_left _ _
    omega
  simp only [PIOS_DELAY_GetuSSince, PIOS_DELAY_GetuS, ht, ht1, hm1]
  exact since_168_arith c0 cf _ hc0 hlast hge htot

/-- Witness of C7 (amended): the wrapping run above, and a run of 84000
ticks that starts at counter value 1000 and does not wrap. -/
theorem C7_sample_wait_query_168MHz_witness :
    499 ≤ (PIOS_DELAY_GetuSSince state168 (PIOS_DELAY_GetuS state168 4294883376).2 80).2 ∧
      500 ≤ (PIOS_DELAY_GetuSSince state168 (PIOS_DELAY_GetuS state168 1000).2 85000).2 :=
  ⟨(C7_sample_wait_query_168MHz resetState state168 state168 4294883376 80
      [4294883376, 80] rfl (by decide) (by decide) (by decide) rfl (by decide)).1,
    (C7_sample_wait_query_168MHz resetState state168 state168 1000 85000
      [1000, 85000] rfl (by decide) (by decide) (by decide) rfl (by decide)).2 (by decide)⟩

/-! ## Query right after the sample: C11 -/

/-- C11: after a successful calibration, for a counter value `c` and a call
overhead of `k` ticks with `c + k ≤ 0xffffffff`, capturing
`t = PIOS_DELAY_GetuS()` at `c` and evaluating `PIOS_DELAY_GetuSSince(t)` at
`c + k` returns at most `k / us_ticks + 1`, and exactly 0 when `k = 0`. -/
theorem C11_getuSSince_right_after (s0 s : DelayState) (f c k : Nat) (hf : f < U32)
    (hs : PIOS_DELAY_Init true s0 f = Except.ok s) (hck : c + k ≤ 4294967295) :
    (PIOS_DELAY_GetuSSince s (PIOS_DELAY_GetuS s c).2 (c + k)).2 ≤ k / s.us_ticks + 1 ∧
      (PIOS_DELAY_GetuSSince s (PIOS_DELAY_GetuS s c).2 (c + 0)).2 = 0 := by
  obtain ⟨hq, hlt, hpos, h3⟩ := GetuS_le_modulo hf hs
  have ht : 0 < s.us_ticks := by omega
  have key : ∀ j, c + j ≤ 4294967295 →
      (PIOS_DELAY_GetuSSince s (PIOS_DELAY_GetuS s c).2 (c + j)).2 =
        ((c + j) / s.us_ticks - c / s.us_ticks) % s.us_modulo := by
    intro j hj
    have hnq : (c + j) / s.us_ticks ≤ 0xffffffff / s.us_ticks := Nat.div_le_div_right hj
    have hpn : c / s.us_ticks ≤ (c + j) / s.us_ticks :=
      Nat.div_le_div_right (Nat.le_add_right _ _)
    simp only [PIOS_DELAY_GetuS, PIOS_DELAY_GetuSSince]
    generalize (c + j) / s.us_ticks = now at hnq hpn ⊢
    generalize c / s.us_ticks = past at hpn ⊢
    generalize 0xffffffff / s.us_ticks = q at hq hnq
    have hadd : now + s.us_modulo < U32 := by unfold U32; omega
    rw [add32_of_lt hadd, sub32_of_le (by omega) hadd]
    have h1 : now + s.us_modulo - past = (now - past) + s.us_modulo := by omega
    rw [h1, Nat.add_mod_right]
  constructor
  · rw [key k hck]
    have hdiv : (c + k) / s.us_ticks ≤ c / s.us_ticks + k / s.us_ticks + 1 := by
      rw [Nat.add_div ht]
      split <;> omega
    refine le_trans (Nat.mod_le _ _) ?_
    generalize (c + k) / s.us_ticks = A at hdiv ⊢
    generalize c / s.us_ticks = B at hdiv ⊢
    generalize k / s.us_ticks = K at hdiv ⊢
    omega
  · rw [key 0 (by omega)]
    simp

/-- Witness of C11: 168 MHz, a sample at counter value 1000 and a query 200
ticks later. -/
theorem C11_getuSSince_right_after_witness :
    (PIOS_DELAY_GetuSSince state168 (PIOS_DELAY_GetuS state168 1000).2 (1000 + 200)).2 ≤
        200 / state168.us_ticks + 1 ∧
      (PIOS_DELAY_GetuSSince state168 (PIOS_DELAY_GetuS state168 1000).2 (1000 + 0)).2 = 0 :=
  C11_getuSSince_right_after resetState state168 168000000 1000 200 (by decide) rfl
    (by decide)

/-! ## A wait of zero microseconds: C12 -/

/-- C12: `PIOS_DELAY_WaituS(0)` reads its first sample, and its loop reads one
sample and leaves at its first exit test whatever the two samples are: the
loop is not gone around again, and every later sample stays unread. -/
theorem C12_wait_zero_exits_at_first_test (s : DelayState) (last_count current_count : Nat)
    (rest : List Nat) (_htpu : 1 ≤ s.us_ticks) :
    WaituS_loop { s with DEMCR := s.DEMCR ||| CoreDebug_DEMCR_TRCENA_Msk }
        (current_count :: rest) 0 last_count 0 =
      some ({ s with DEMCR := s.DEMCR ||| CoreDebug_DEMCR_TRCENA_Msk |||
        CoreDebug_DEMCR_TRCENA_Msk }, rest) ∧
      PIOS_DELAY_WaituS s 0 (last_count :: current_count :: rest) =
        some ({ s with DEMCR := s.DEMCR ||| CoreDebug_DEMCR_TRCENA_Msk |||
          CoreDebug_DEMCR_TRCENA_Msk }, rest) := by
  constructor
  · simp [WaituS_loop]
  · simp [PIOS_DELAY_WaituS, WaituS_loop]

/-- Witness of C12: 168 ticks per microsecond, a counter that does not move
between the two reads, and one that jumps. -/
theorem C12_wait_zero_exits_at_first_test_witness :
    PIOS_DELAY_WaituS state168 0 [7, 7, 8, 9] = some (state168, [8, 9]) ∧
      PIOS_DELAY_WaituS state168 0 [4294967295, 3, 8, 9] = some (state168, [8, 9]) :=
  ⟨(C12_wait_zero_exits_at_first_test state168 7 7 [8, 9] (by decide)).2,
    (C12_wait_zero_exits_at_first_test state168 4294967295 3 [8, 9] (by decide)).2⟩

/-! ## Milliseconds: C13 -/

/-- A run that did not return stays so under further invocations. -/
theorem repeat_none (n : Nat) :
    (fun r : Option (DelayState × List Nat) =>
      r.bind fun p => PIOS_DELAY_WaituS p.1 1000 p.2)^[n] none = none := by
  induction n with
  | zero => rfl
  | succ n ih => rw [Function.iterate_succ_apply]; exact ih

/-- C13: for every `mS`, `PIOS_DELAY_WaitmS(mS)` is `mS` successive invocations
of `PIOS_DELAY_WaituS(1000)` and nothing else, each on the state and the
samples the one before left; for `mS = 0` there is none, no sample is read and
the state is unchanged. -/
theorem C13_waitmS_repeats_waituS (s : DelayState) (mS : Nat) (CYCCNT : List Nat) :
    PIOS_DELAY_WaitmS s mS CYCCNT = repeat_WaituS_1000 mS s CYCCNT ∧
      PIOS_DELAY_WaitmS s 0 CYCCNT = some (s, CYCCNT) := by
  refine ⟨?_, rfl⟩
  induction mS generalizing s CYCCNT with
  | zero => rfl
  | succ n ih =>
    unfold repeat_WaituS_1000
    rw [Function.iterate_succ_apply]
    simp only [PIOS_DELAY_WaitmS, Option.some_bind]
    cases hw : PIOS_DELAY_WaituS s 1000 CYCCNT with
    | none => simp only [repeat_none]
    | some p =>
      obtain ⟨s1, rest⟩ := p
      simp only []
      exact ih s1 rest

/-! ## The calibration is read-only: C15 -/

/-- The calibration is not touched by `PIOS_DELAY_WaitmS`. -/
theorem WaitmS_frame (mS : Nat) :
    ∀ (s s1 : DelayState) (CYCCNT rest : List Nat),
      PIOS_DELAY_WaitmS s mS CYCCNT = some (s1, rest) →
      s1.us_ticks = s.us_ticks ∧ s1.us_modulo = s.us_modulo := by
  induction mS with
  | zero =>
    intro s s1 CYCCNT rest h
    simp only [PIOS_DELAY_WaitmS, Option.some.injEq, Prod.mk.injEq] at h
    rw [h.1]
    exact ⟨rfl, rfl⟩
  | succ n ih =>
    intro s s1 CYCCNT rest h
    simp only [PIOS_DELAY_WaitmS] at h
    cases hw : PIOS_DELAY_WaituS s 1000 CYCCNT with
    | none => rw [hw] at h; cases h
    | some p =>
      obtain ⟨s2, rest2⟩ := p
      rw [hw] at h
      obtain ⟨h1, h2⟩ := WaituS_frame hw
      obtain ⟨h3, h4⟩ := ih s2 s1 rest2 rest h
      exact ⟨h3.trans h1, h4.trans h2⟩

/-- C15: `us_ticks` and `us_modulo` are left unchanged by
`PIOS_DELAY_WaituS` and `PIOS_DELAY_WaitmS` (whenever they return),
`PIOS_DELAY_GetuS`, `PIOS_DELAY_GetuSSince`, `PIOS_DELAY_GetRaw` and
`PIOS_DELAY_DiffuS`, for every argument and every counter sample;
`PIOS_DELAY_DiffuS2` computes a value from the state and writes nothing. -/
theorem C15_calibration_never_mutated (s : DelayState) (arg CYCCNT : Nat)
    (samples : List Nat) :
    (∀ s1 rest, PIOS_DELAY_WaituS s arg samples = some (s1, rest) →
        s1.us_ticks = s.us_ticks ∧ s1.us_modulo = s.us_modulo) ∧
      (∀ s1 rest, PIOS_DELAY_WaitmS s arg samples = some (s1, rest) →
        s1.us_ticks = s.us_ticks ∧ s1.us_modulo = s.us_modulo) ∧
      ((PIOS_DELAY_GetuS s CYCCNT).1.us_ticks = s.us_ticks ∧
        (PIOS_DELAY_GetuS s CYCCNT).1.us_modulo = s.us_modulo) ∧
      ((PIOS_DELAY_GetuSSince s arg CYCCNT).1.us_ticks = s.us_ticks ∧
        (PIOS_DELAY_GetuSSince s arg CYCCNT).1.us_modulo = s.us_modulo) ∧
      ((PIOS_DELAY_GetRaw s CYCCNT).1.us_ticks = s.us_ticks ∧
        (PIOS_DELAY_GetRaw s CYCCNT).1.us_modulo = s.us_modulo) ∧
      ((PIOS_DELAY_DiffuS s arg CYCCNT).1.us_ticks = s.us_ticks ∧
        (PIOS_DELAY_DiffuS s arg CYCCNT).1.us_modulo = s.us_modulo) := by
  refine ⟨?_, ?_, ⟨rfl, rfl⟩, ⟨rfl, rfl⟩, ⟨rfl, rfl⟩, ⟨rfl, rfl⟩⟩
  · intro s1 rest h
    exact WaituS_frame h
  · intro s1 rest h
    exact WaitmS_frame arg s s1 samples rest h

/-- Witness of C15: a wait of 500 microseconds and a wait of 1 millisecond at
168 ticks per microsecond, started with the trace-enable bit cleared: both
return in `state168`, whose calibration is the one of the start. -/
theorem C15_calibration_never_mutated_witness :
    (state168.us_ticks = ({ state168 with DEMCR := 0 } : DelayState).us_ticks ∧
        state168.us_modulo = ({ state168 with DEMCR := 0 } : DelayState).us_modulo) ∧
      (state168.us_ticks = ({ state168 with DEMCR := 0 } : DelayState).us_ticks ∧
        state168.us_modulo = ({ state168 with DEMCR := 0 } : DelayState).us_modulo) :=
  ⟨(C15_calibration_never_mutated { state168 with DEMCR := 0 } 500 0
      [4294883376, 80]).1 state168 [] rfl,
    (C15_calibration_never_mutated { state168 with DEMCR := 0 } 1 0
      [0, 168000, 3]).2.1 state168 [3] rfl⟩

/-! ## Raw difference to now: C16 -/

/-- C16: `PIOS_DELAY_DiffuS(past_raw)` evaluated when the counter reads `c`
returns `PIOS_DELAY_DiffuS2(past_raw, c)`, that is
`((c - past_raw) mod 2^32) / us_ticks` with the difference taken in the
integers. -/
theorem C16_diffuS_is_diffuS2_now (s : DelayState) (past_raw c : Nat)
    (hp : past_raw < U32) (hc : c < U32) :
    (PIOS_DELAY_DiffuS s past_raw c).2 = PIOS_DELAY_DiffuS2 s past_raw c ∧
      ((PIOS_DELAY_DiffuS s past_raw c).2 : Int) =
        (((c : Int) - (past_raw : Int)) % 4294967296) / (s.us_ticks : Int) := by
  unfold U32 at hp hc
  refine ⟨rfl, ?_⟩
  have h : ((sub32 c past_raw : Nat) : Int) = ((c : Int) - (past_raw : Int)) % 4294967296 := by
    unfold sub32 U32
    omega
  simp only [PIOS_DELAY_DiffuS, PIOS_DELAY_DiffuS2]
  rw [← h]
  norm_cast

/-- Witness of C16: 168 ticks per microsecond, a past sample 1000 ticks before
the wrap and the counter at 83000. -/
theorem C16_diffuS_is_diffuS2_now_witness :
    (PIOS_DELAY_DiffuS state168 4294966296 83000).2 =
        PIOS_DELAY_DiffuS2 state168 4294966296 83000 ∧
      ((PIOS_DELAY_DiffuS state168 4294966296 83000).2 : Int) =
        (((83000 : Nat) : Int) - ((4294966296 : Nat) : Int)) % 4294967296 /
          ((168 : Nat) : Int) :=
  C16_diffuS_is_diffuS2_now state168 4294966296 83000 (by decide) (by decide)

/-! ## Exact success condition of the calibration: C18 -/

/-- C18: for every 32-bit clock frequency `f`, `PIOS_DELAY_Init` passes both
assertions exactly when `f / 1,000,000 ≥ 3`, that is `f ≥ 3,000,000`; at
`us_ticks = 2` the modulus is exactly `0x80000000` and the assertion
`us_modulo < 0x80000000` fires. -/
theorem C18_init_succeeds_iff (s : DelayState) (f : Nat) (hf : f < U32) :
    ((∃ s1, PIOS_DELAY_Init true s f = Except.ok s1) ↔ 3 ≤ f / 1000000) ∧
      ((1 < f / 1000000 ∧ us_modulo_calc (f / 1000000) < 0x80000000) ↔ 3 ≤ f / 1000000) ∧
      (3 ≤ f / 1000000 ↔ 3000000 ≤ f) ∧
      us_modulo_calc 2 = 0x80000000 ∧
      (f / 1000000 = 2 → PIOS_DELAY_Init true s f = Except.error Fault.assertModulo) := by
  have hlt : f / 1000000 < U32 := lt_of_le_of_lt (Nat.div_le_self _ _) hf
  have h2 : us_modulo_calc 2 = 0x80000000 := rfl
  refine ⟨⟨?_, ?_⟩, ⟨?_, ?_⟩, by omega, h2, ?_⟩
  · rintro ⟨s1, h⟩
    have h3 := (init_true_inv hf h).1
    rw [(init_ok_inv h).1] at h3
    exact h3
  · intro h3
    exact ⟨_, init_ok h3 hlt⟩
  · rintro ⟨h1, hm⟩
    by_contra hc
    have ht : f / 1000000 = 2 := by omega
    rw [ht, h2] at hm
    omega
  · intro h3
    exact ⟨by omega, us_modulo_calc_lt_half h3 hlt⟩
  · intro ht
    simp [PIOS_DELAY_Init, ht, h2]

/-- Witness of C18: 168 MHz is accepted, 2,999,999 Hz is refused by the
half-range assertion. -/
theorem C18_init_succeeds_iff_witness :
    (∃ s1, PIOS_DELAY_Init true resetState 168000000 = Except.ok s1) ∧
      PIOS_DELAY_Init true resetState 2999999 = Except.error Fault.assertModulo :=
  ⟨(C18_init_succeeds_iff resetState 168000000 (by decide)).1.mpr (by decide),
    (C18_init_succeeds_iff resetState 2999999 (by decide)).2.2.2.2 (by decide)⟩

/-! ## The wait loop against the naive reference: C17 -/

/-- Splitting a product at a quotient that is at most the factor. -/
theorem mul_split_sub {u q t : Nat} (h : q ≤ u) : u * t = (u - q) * t + q * t := by
  rw [← Nat.add_mul, Nat.sub_add_cancel h]

/-- With a carried remainder below `us_ticks` and differences of at most
`2^32 - us_ticks`, the wait loop leaves at the same read as the naive
reference whose target is the ticks still owed. -/
theorem WaituS_loop_eq_naive (CYCCNT : List Nat) :
    ∀ (s : DelayState) (elapsed last_count uS target D : Nat),
      s.us_ticks < U32 → elapsed < s.us_ticks →
      diffsWithin 0 (U32 - s.us_ticks) last_count CYCCNT = true →
      target + elapsed = uS * s.us_ticks + D →
      (WaituS_loop s CYCCNT elapsed last_count uS).map Prod.snd =
        naiveWait_loop target CYCCNT D last_count := by
  induction CYCCNT with
  | nil =>
    intro s elapsed last_count uS target D _ _ _ _
    rfl
  | cons c cs ih =>
    intro s elapsed last_count uS target D h32 he hd ht
    simp only [diffsWithin, Bool.and_eq_true, decide_eq_true_eq] at hd
    obtain ⟨⟨_, hhi⟩, hcs⟩ := hd
    have hpos : 0 < s.us_ticks := by omega
    have hadd : add32 elapsed (sub32 c last_count) = elapsed + sub32 c last_count :=
      add32_of_lt (by unfold U32 at *; omega)
    unfold WaituS_loop naiveWait_loop
    simp only [hadd]
    generalize sub32 c last_count = d at hhi ⊢
    have hdm := Nat.div_add_mod (elapsed + d) s.us_ticks
    rw [Nat.mul_comm] at hdm
    have hr := Nat.mod_lt (elapsed + d) hpos
    by_cases hx : uS ≤ (elapsed + d) / s.us_ticks
    · have hx2 : uS * s.us_ticks ≤ elapsed + d := (Nat.le_div_iff_mul_le hpos).mp hx
      have hx3 : target ≤ D + d := by omega
      simp only [ge_iff_le, hx, hx3, if_true, Option.map_some']
    · have hx2 : ¬ uS * s.us_ticks ≤ elapsed + d := fun h =>
        hx ((Nat.le_div_iff_mul_le hpos).mpr h)
      have hx3 : ¬ target ≤ D + d := by omega
      simp only [ge_iff_le, hx, hx3, if_false]
      apply ih { s with DEMCR := s.DEMCR ||| CoreDebug_DEMCR_TRCENA_Msk }
      · exact h32
      · exact hr
      · exact hcs
      · show target + (elapsed + d) % s.us_ticks =
          (uS - (elapsed + d) / s.us_ticks) * s.us_ticks + (D + d)
        have hsp := mul_split_sub (t := s.us_ticks) (le_of_lt (not_le.mp hx))
        generalize (elapsed + d) / s.us_ticks = q at hdm hsp ⊢
        generalize (elapsed + d) % s.us_ticks = r at hdm ⊢
        omega

/-- Invariant at the loop heads: with a carried remainder below `us_ticks`
and differences of at most `2^32 - us_ticks`, at the head reached after `i`
reads the microseconds taken off `uS`, in ticks, plus the carried remainder
are the remainder at the start plus the ticks elapsed over these reads. -/
theorem WaituS_heads_inv (CYCCNT : List Nat) :
    ∀ (s : DelayState) (elapsed last_count uS i e u : Nat),
      s.us_ticks < U32 → elapsed < s.us_ticks →
      diffsWithin 0 (U32 - s.us_ticks) last_count CYCCNT = true →
      (WaituS_heads s CYCCNT elapsed last_count uS)[i]? = some (e, u) →
      u ≤ uS ∧ (uS - u) * s.us_ticks + e = elapsed + ticksElapsed last_count (CYCCNT.take i) ∧
        e < s.us_ticks := by
  induction CYCCNT with
  | nil =>
    intro s elapsed last_count uS i e u _ he _ hi
    cases i with
    | zero =>
      simp only [WaituS_heads, List.getElem?_cons_zero, Option.some.injEq, Prod.mk.injEq] at hi
      obtain ⟨h1, h2⟩ := hi
      subst h1 h2
      simp [ticksElapsed, he]
    | succ j => simp [WaituS_heads] at hi
  | cons c cs ih =>
    intro s elapsed last_count uS i e u h32 he hd hi
    cases i with
    | zero =>
      simp only [WaituS_heads, List.getElem?_cons_zero, Option.some.injEq, Prod.mk.injEq] at hi
      obtain ⟨h1, h2⟩ := hi
      subst h1 h2
      simp [ticksElapsed, he]
    | succ j =>
      simp only [diffsWithin, Bool.and_eq_true, decide_eq_true_eq] at hd
      obtain ⟨⟨_, hhi⟩, hcs⟩ := hd
      have hpos : 0 < s.us_ticks := by omega
      have hadd : add32 elapsed (sub32 c last_count) = elapsed + sub32 c last_count :=
        add32_of_lt (by unfold U32 at *; omega)
      simp only [WaituS_heads, List.getElem?_cons_succ, hadd] at hi
      simp only [List.take_succ_cons, ticksElapsed]
      clear hadd
      generalize sub32 c last_count = d at hhi hi ⊢
      have hdm := Nat.div_add_mod (elapsed + d) s.us_ticks
      rw [Nat.mul_comm] at hdm
      by_cases hx : uS ≤ (elapsed + d) / s.us_ticks
      · simp [hx] at hi
      · simp only [ge_iff_le, hx, if_false] at hi
        obtain ⟨h1, h2, h3⟩ := ih s _ c _ j e u h32 (Nat.mod_lt _ hpos) hcs hi
        have hsp := mul_split_sub (t := s.us_ticks) h1
        generalize (elapsed + d) / s.us_ticks = q at hdm hsp h1 h2 hx
        generalize (elapsed + d) % s.us_ticks = r at hdm h2
        have hsp2 : (uS - u) * s.us_ticks = (uS - q - u) * s.us_ticks + q * s.us_ticks := by
          rw [← Nat.add_mul]
          congr 1
          omega
        refine ⟨by omega, ?_, h3⟩
        rw [hsp2]
        omega


/-- The loop heads on the samples a returning wait loop reads are as many as
these samples. -/
theorem WaituS_heads_length (CYCCNT : List Nat) :
    ∀ (s h : DelayState) (elapsed last_count uS : Nat) (s1 : DelayState) (rest : List Nat),
      h.us_ticks = s.us_ticks →
      WaituS_loop s CYCCNT elapsed last_count uS = some (s1, rest) →
      (WaituS_heads h CYCCNT elapsed last_count uS).length + rest.length = CYCCNT.length := by
  induction CYCCNT with
  | nil =>
    intro s h elapsed last_count uS s1 rest _ hw
    simp [WaituS_loop] at hw
  | cons c cs ih =>
    intro s h elapsed last_count uS s1 rest hh hw
    unfold WaituS_loop at hw
    simp only [] at hw
    unfold WaituS_heads
    simp only [hh]
    split at hw
    · rename_i hge
      injection hw with hw
      injection hw with h1 h2
      subst h2
      simp only [hge, if_true, List.length_cons, List.length_nil]
      omega
    · rename_i hlt
      have hrec := ih { s with DEMCR := s.DEMCR ||| CoreDebug_DEMCR_TRCENA_Msk } h _ _ _ _ _ hh hw
      simp only [] at hrec
      simp only [hlt, if_false, List.length_cons]
      omega

/-- When the naive reference leaves the loop, it does so at the first read at
which the ticks summed so far reach the target. -/
theorem naiveWait_loop_first (CYCCNT : List Nat) :
    ∀ (target D last_count : Nat) (rest : List Nat),
      naiveWait_loop target CYCCNT D last_count = some rest →
      ∃ k, 1 ≤ k ∧ k ≤ CYCCNT.length ∧ rest = CYCCNT.drop k ∧
        target ≤ D + ticksElapsed last_count (CYCCNT.take k) ∧
        ∀ j, 1 ≤ j → j < k → D + ticksElapsed last_count (CYCCNT.take j) < target := by
  induction CYCCNT with
  | nil =>
    intro target D last_count rest h
    simp [naiveWait_loop] at h
  | cons c cs ih =>
    intro target D last_count rest h
    unfold naiveWait_loop at h
    simp only [] at h
    split at h
    · rename_i hge
      injection h with h
      subst h
      refine ⟨1, le_refl _, by simp, rfl, ?_, ?_⟩
      · simp only [List.take_succ_cons, List.take_zero, ticksElapsed]
        omega
      · intro j h1 h2
        omega
    · rename_i hlt
      obtain ⟨k, hk1, hk2, hk3, hk4, hk5⟩ := ih _ _ _ _ h
      refine ⟨k + 1, by omega, by simp; omega, by simpa using hk3, ?_, ?_⟩
      · simp only [List.take_succ_cons, ticksElapsed]
        omega
      · intro j h1 h2
        obtain ⟨i, rfl⟩ : ∃ i, j = i + 1 := ⟨j - 1, by omega⟩
        simp only [List.take_succ_cons, ticksElapsed]
        cases i with
        | zero =>
          simp only [List.take_zero, ticksElapsed]
          omega
        | succ i =>
          have := hk5 (i + 1) (by omega) (by omega)
          omega

/-- C17: for `1 ≤ us_ticks`, every `uS` and all loop reads whose successive
wraparound differences are at most `2^32 - us_ticks`: `PIOS_DELAY_WaituS`
leaves its loop at the same read as the naive reference with target
`uS * us_ticks`, which is the first read `k` at which the cumulative ticks
`D_k` reach `uS * us_ticks`; and at the loop head reached after `i` reads,
`(uS_requested - uS_remaining) * us_ticks + elapsed = D_i`, with
`elapsed < us_ticks`: no fractional tick is discarded. -/
theorem C17_wait_loop_is_naive_reference (s : DelayState) (uS last_count : Nat)
    (CYCCNT : List Nat) (htpu : 1 ≤ s.us_ticks) (h32 : s.us_ticks < U32)
    (hd : diffsWithin 0 (U32 - s.us_ticks) last_count CYCCNT = true) :
    (PIOS_DELAY_WaituS s uS (last_count :: CYCCNT)).map Prod.snd =
        naiveWait_loop (uS * s.us_ticks) CYCCNT 0 last_count ∧
      (∀ s1 rest, PIOS_DELAY_WaituS s uS (last_count :: CYCCNT) = some (s1, rest) →
        (WaituS_heads s CYCCNT 0 last_count uS).length + rest.length = CYCCNT.length ∧
        ∃ k, 1 ≤ k ∧ k ≤ CYCCNT.length ∧ rest = CYCCNT.drop k ∧
          uS * s.us_ticks ≤ ticksElapsed last_count (CYCCNT.take k) ∧
          ∀ j, 1 ≤ j → j < k → ticksElapsed last_count (CYCCNT.take j) < uS * s.us_ticks) ∧
      ∀ i e u, (WaituS_heads s CYCCNT 0 last_count uS)[i]? = some (e, u) →
        u ≤ uS ∧ (uS - u) * s.us_ticks + e = ticksElapsed last_count (CYCCNT.take i) ∧
          e < s.us_ticks := by
  have hnaive : (PIOS_DELAY_WaituS s uS (last_count :: CYCCNT)).map Prod.snd =
      naiveWait_loop (uS * s.us_ticks) CYCCNT 0 last_count :=
    WaituS_loop_eq_naive CYCCNT { s with DEMCR := s.DEMCR ||| CoreDebug_DEMCR_TRCENA_Msk }
      0 last_count uS (uS * s.us_ticks) 0 h32 htpu hd rfl
  refine ⟨hnaive, ?_, ?_⟩
  · intro s1 rest hw
    constructor
    · exact WaituS_heads_length CYCCNT
        { s with DEMCR := s.DEMCR ||| CoreDebug_DEMCR_TRCENA_Msk } s 0 last_count uS s1 rest
        rfl hw
    · rw [hw] at hnaive
      obtain ⟨k, h1, h2, h3, h4, h5⟩ :=
        naiveWait_loop_first CYCCNT _ _ _ rest hnaive.symm
      exact ⟨k, h1, h2, h3, by simpa using h4, fun j hj1 hj2 => by simpa using h5 j hj1 hj2⟩
  · intro i e u hi
    have := WaituS_heads_inv CYCCNT s 0 last_count uS i e u h32 htpu hd hi
    simpa using this

/-- Witness of C17: 168 ticks per microsecond, 500 microseconds, three loop
reads across a wrap of the counter; the loop leaves at the third read, and
the head before it holds 1 microsecond still owed and 167 ticks carried. -/
theorem C17_wait_loop_is_naive_reference_witness :
    (PIOS_DELAY_WaituS state168 500 [4294883376, 4294883400, 79, 80, 85]).map Prod.snd =
        naiveWait_loop (500 * state168.us_ticks) [4294883400, 79, 80, 85] 0 4294883376 ∧
      (1 ≤ 500 ∧ (500 - 1) * state168.us_ticks + 167 =
        ticksElapsed 4294883376 ([4294883400, 79, 80, 85].take 2) ∧ 167 < state168.us_ticks) :=
  ⟨(C17_wait_loop_is_naive_reference state168 500 4294883376 [4294883400, 79, 80, 85]
      (by decide) (by decide) rfl).1,
    (C17_wait_loop_is_naive_reference state168 500 4294883376 [4294883400, 79, 80, 85]
      (by decide) (by decide) rfl).2.2 2 167 1 rfl⟩

/-! ## Termination of the busy-wait: C20 -/

/-- Differences that are at least `lo` are at least 0. -/
theorem diffsWithin_zero {lo hi : Nat} (CYCCNT : List Nat) :
    ∀ last_count, diffsWithin lo hi last_count CYCCNT = true →
      diffsWithin 0 hi last_count CYCCNT = true := by
  induction CYCCNT with
  | nil => intro _ _; rfl
  | cons c cs ih =>
    intro last_count h
    simp only [diffsWithin, Bool.and_eq_true, decide_eq_true_eq] at h ⊢
    exact ⟨⟨Nat.zero_le _, h.1.2⟩, ih c h.2⟩

/-- On samples that each advance by at least one tick, the naive reference
leaves the loop after at most `max 1 (target - D)` reads. -/
theorem naiveWait_loop_terminates {hi : Nat} (CYCCNT : List Nat) :
    ∀ (target D last_count : Nat),
      diffsWithin 1 hi last_count CYCCNT = true →
      max 1 (target - D) ≤ CYCCNT.length →
      ∃ rest, naiveWait_loop target CYCCNT D last_count = some rest ∧
        CYCCNT.length ≤ rest.length + max 1 (target - D) := by
  induction CYCCNT with
  | nil =>
    intro target D last_count _ hlen
    simp only [List.length_nil] at hlen
    omega
  | cons c cs ih =>
    intro target D last_count hd hlen
    simp only [diffsWithin, Bool.and_eq_true, decide_eq_true_eq] at hd
    obtain ⟨⟨hlo, _⟩, hcs⟩ := hd
    simp only [List.length_cons] at hlen ⊢
    unfold naiveWait_loop
    simp only []
    generalize sub32 c last_count = d at hlo ⊢
    by_cases hx : target ≤ D + d
    · refine ⟨cs, by simp only [ge_iff_le, hx, if_true], ?_⟩
      omega
    · obtain ⟨rest, hr, hl⟩ := ih target (D + d) c hcs (by omega)
      refine ⟨rest, by simp only [ge_iff_le, hx, if_false]; exact hr, ?_⟩
      omega

/-- C20: for `1 ≤ us_ticks` and every `uS`, when every loop read advances on
the one before by a wraparound difference `d` with `1 ≤ d ≤ 2^32 - us_ticks`,
and at least `max 1 (uS * us_ticks)` samples are there to be read,
`PIOS_DELAY_WaituS` returns, having gone through at most
`max 1 (uS * us_ticks)` loop reads. -/
theorem C20_wait_terminates (s : DelayState) (uS last_count : Nat) (CYCCNT : List Nat)
    (htpu : 1 ≤ s.us_ticks) (h32 : s.us_ticks < U32)
    (hd : diffsWithin 1 (U32 - s.us_ticks) last_count CYCCNT = true)
    (hlen : max 1 (uS * s.us_ticks) ≤ CYCCNT.length) :
    ∃ s1 used rest, PIOS_DELAY_WaituS s uS (last_count :: CYCCNT) = some (s1, rest) ∧
      CYCCNT = used ++ rest ∧ used.length ≤ max 1 (uS * s.us_ticks) := by
  have hnaive : (PIOS_DELAY_WaituS s uS (last_count :: CYCCNT)).map Prod.snd =
      naiveWait_loop (uS * s.us_ticks) CYCCNT 0 last_count :=
    WaituS_loop_eq_naive CYCCNT { s with DEMCR := s.DEMCR ||| CoreDebug_DEMCR_TRCENA_Msk }
      0 last_count uS (uS * s.us_ticks) 0 h32 htpu (diffsWithin_zero CYCCNT _ hd) rfl
  obtain ⟨rest, hr, hl⟩ :=
    naiveWait_loop_terminates CYCCNT (uS * s.us_ticks) 0 last_count hd (by simpa using hlen)
  rw [hr, Option.map_eq_some'] at hnaive
  obtain ⟨⟨s1, rest1⟩, hw, hrest⟩ := hnaive
  simp only [] at hrest
  subst hrest
  obtain ⟨c0, used, hu, _⟩ := WaituS_ticks hw
  injection hu with _ hu
  refine ⟨s1, used, rest1, hw, hu, ?_⟩
  have hlen2 : CYCCNT.length = used.length + rest1.length := by
    rw [hu, List.length_append]
  simp only [Nat.sub_zero] at hl
  omega

/-- Witness of C20: 3 ticks per microsecond, 2 microseconds, a counter that
advances by one tick per read from `0xfffffffe` across its wrap; the wait
returns at the sixth of its seven loop reads. -/
theorem C20_wait_terminates_witness :
    ∃ s1 used rest,
      PIOS_DELAY_WaituS { us_ticks := 3, us_modulo := 1431655765, DEMCR := 0, DWT_CTRL := 1 } 2
          (4294967294 :: [4294967295, 0, 1, 2, 3, 4, 5]) = some (s1, rest) ∧
        [4294967295, 0, 1, 2, 3, 4, 5] = used ++ rest ∧
        used.length ≤ max 1 (2 * 3) :=
  C20_wait_terminates { us_ticks := 3, us_modulo := 1431655765, DEMCR := 0, DWT_CTRL := 1 } 2
    4294967294 [4294967295, 0, 1, 2, 3, 4, 5] (by decide) (by decide) rfl (by decide)

/-! ## Elapsed microseconds against raw ticks: C19 -/

/-- A factor is below another when its product with a positive number is. -/
theorem lt_of_mul_lt {t a b : Nat} (h : t * a < t * b) : a < b :=
  Nat.lt_of_mul_lt_mul_left h

/-- C19: after a successful calibration, for raw counter samples `p` and `n`
with `d = (n - p) mod 2^32` elapsed ticks, when `d / us_ticks + 1 < us_modulo`,
`PIOS_DELAY_GetuSSince(p / us_ticks)` evaluated with the counter at `n`
differs from `d / us_ticks` by at most one microsecond, whether the counter
wrapped between `p` and `n` or not. -/
theorem C19_since_within_one_microsecond (s0 s : DelayState) (f p n : Nat) (hf : f < U32)
    (hs : PIOS_DELAY_Init true s0 f = Except.ok s) (hp : p < U32) (hn : n < U32)
    (hd : sub32 n p / s.us_ticks + 1 < s.us_modulo) :
    (PIOS_DELAY_GetuSSince s (PIOS_DELAY_GetuS s p).2 n).2 ≤ sub32 n p / s.us_ticks + 1 ∧
      sub32 n p / s.us_ticks ≤ (PIOS_DELAY_GetuSSince s (PIOS_DELAY_GetuS s p).2 n).2 + 1 := by
  obtain ⟨h3, h32, hm, hlt⟩ := init_true_inv hf hs
  have hpos : 0 < s.us_ticks := by omega
  have eP := Nat.div_add_mod p s.us_ticks
  have eN := Nat.div_add_mod n s.us_ticks
  have eM := Nat.div_add_mod U32 s.us_ticks
  have eQ := Nat.div_add_mod (sub32 n p) s.us_ticks
  have rP := Nat.mod_lt p hpos
  have rN := Nat.mod_lt n hpos
  have rM := Nat.mod_lt U32 hpos
  have rQ := Nat.mod_lt (sub32 n p) hpos
  rw [← hm] at eM
  have hNm : n / s.us_ticks ≤ s.us_modulo := by
    rw [hm]
    exact Nat.div_le_div_right (le_of_lt hn)
  have hPm : p / s.us_ticks ≤ s.us_modulo := by
    rw [hm]
    exact Nat.div_le_div_right (le_of_lt hp)
  have hPN : p ≤ n → p / s.us_ticks ≤ n / s.us_ticks := fun h => Nat.div_le_div_right h
  have hd32 : (p ≤ n → sub32 n p = n - p) ∧ (n < p → sub32 n p + p = n + U32) := by
    unfold sub32 U32 at *
    constructor <;> intro h <;> omega
  simp only [PIOS_DELAY_GetuS, PIOS_DELAY_GetuSSince]
  generalize sub32 n p = d at hd eQ rQ hd32 ⊢
  generalize U32 % s.us_ticks = r at eM rM
  generalize p % s.us_ticks = rp at eP rP
  generalize n % s.us_ticks = rn at eN rN
  generalize d % s.us_ticks = rq at eQ rQ
  generalize p / s.us_ticks = P at eP hPm hPN ⊢
  generalize n / s.us_ticks = N at eN hNm hPN ⊢
  generalize d / s.us_ticks = Q at eQ hd ⊢
  generalize s.us_modulo = m at eM hNm hPm hd hlt ⊢
  generalize s.us_ticks = t at *
  have hadd : N + m < U32 := by unfold U32; omega
  rw [add32_of_lt hadd, sub32_of_le (by omega) hadd]
  unfold U32 at *
  by_cases hw : p ≤ n
  · have hle := hPN hw
    have hdv := hd32.1 hw
    have hv : t * (N - P) + t * P = t * N := by
      rw [← Nat.mul_add, Nat.sub_add_cancel hle]
    have hv1 : N - P < Q + 2 := lt_of_mul_lt (t := t) (by rw [Nat.mul_add]; omega)
    have hv2 : Q < (N - P) + 1 := lt_of_mul_lt (t := t) (by rw [Nat.mul_add]; omega)
    have hres : (N + m - P) % m = N - P := by
      have h1 : N + m - P = (N - P) + m := by omega
      rw [h1, Nat.add_mod_right, Nat.mod_eq_of_lt (by omega)]
    rw [hres]
    omega
  · have hdv := hd32.2 (by omega)
    have hv : t * (N + m - P) + t * P = t * N + t * m := by
      rw [← Nat.mul_add, ← Nat.mul_add, Nat.sub_add_cancel (by omega)]
    have hv1 : N + m - P < Q + 2 := lt_of_mul_lt (t := t) (by rw [Nat.mul_add]; omega)
    have hv2 : Q < (N + m - P) + 2 := lt_of_mul_lt (t := t) (by rw [Nat.mul_add]; omega)
    rw [Nat.mod_eq_of_lt (by omega)]
    omega

/-- Witness of C19: 168 MHz, `p` sampled 83920 ticks before the wrap and `n`
80 ticks after it: 84000 ticks, 500 microseconds, and the query returns 499. -/
theorem C19_since_within_one_microsecond_witness :
    (PIOS_DELAY_GetuSSince state168 (PIOS_DELAY_GetuS state168 4294883376).2 80).2 ≤
        sub32 80 4294883376 / state168.us_ticks + 1 ∧
      sub32 80 4294883376 / state168.us_ticks ≤
        (PIOS_DELAY_GetuSSince state168 (PIOS_DELAY_GetuS state168 4294883376).2 80).2 + 1 :=
  C19_since_within_one_microsecond resetState state168 168000000 4294883376 80 (by decide) rfl
    (by decide) (by decide) (by decide)

/-! ## A thousand short waits against one long wait: C14 -/

/-- Two consecutive samples of a stepped counter differ by the step. -/
theorem sub32_stepped {step : Nat} (hstep : step < U32) (c : Nat) :
    sub32 ((c + step) % U32) (c % U32) = step := by
  unfold sub32 U32 at *
  omega

theorem length_steppedSamples (step : Nat) :
    ∀ n c, (steppedSamples step n c).length = n := by
  intro n
  induction n with
  | zero => intro c; rfl
  | succ n ih => intro c; simp only [steppedSamples, List.length_cons, ih]

theorem take_steppedSamples (step : Nat) :
    ∀ k n c, k ≤ n → (steppedSamples step n c).take k = steppedSamples step k c := by
  intro k
  induction k with
  | zero => intro n c _; simp [steppedSamples]
  | succ k ih =>
    intro n c h
    obtain ⟨n1, rfl⟩ : ∃ n1, n = n1 + 1 := ⟨n - 1, by omega⟩
    simp only [steppedSamples, List.take_succ_cons, ih n1 (c + step) (by omega)]

/-- Over `k` reads of a stepped counter `k * step` ticks elapse. -/
theorem ticksElapsed_stepped {step : Nat} (hstep : step < U32) :
    ∀ k c, ticksElapsed (c % U32) (steppedSamples step k (c + step)) = k * step := by
  intro k
  induction k with
  | zero => intro c; simp [steppedSamples, ticksElapsed]
  | succ k ih =>
    intro c
    simp only [steppedSamples, ticksElapsed, sub32_stepped hstep, ih (c + step)]
    rw [Nat.succ_mul]
    omega

/-- The wait loop on a stepped counter: it leaves at read `k + 1` when the
carried ticks plus `k + 1` steps cover the microseconds owed and `k` steps do
not, provided the accumulator does not wrap. -/
theorem WaituS_loop_stepped {step : Nat} (hstep : step < U32) (k : Nat) :
    ∀ (n : Nat) (s : DelayState) (c elapsed uS : Nat),
      elapsed + step < U32 → (k = 0 ∨ step + s.us_ticks ≤ U32) → 0 < s.us_ticks →
      uS * s.us_ticks ≤ elapsed + (k + 1) * step →
      (k = 0 ∨ elapsed + k * step < uS * s.us_ticks) →
      k + 1 ≤ n →
      ∃ s1, WaituS_loop s (steppedSamples step n (c + step)) elapsed (c % U32) uS =
          some (s1, steppedSamples step (n - (k + 1)) (c + step + (k + 1) * step)) ∧
        s1.us_ticks = s.us_ticks := by
  induction k with
  | zero =>
    intro n s c elapsed uS he _ hpos hreach _ hn
    obtain ⟨n1, rfl⟩ : ∃ n1, n = n1 + 1 := ⟨n - 1, by omega⟩
    simp only [steppedSamples, WaituS_loop, sub32_stepped hstep, add32_of_lt he]
    have hx : uS ≤ (elapsed + step) / s.us_ticks :=
      (Nat.le_div_iff_mul_le hpos).mpr (by omega)
    simp only [ge_iff_le, hx, if_true]
    refine ⟨{ s with DEMCR := s.DEMCR ||| CoreDebug_DEMCR_TRCENA_Msk }, ?_, rfl⟩
    simp
  | succ k ih =>
    intro n s c elapsed uS he hov hpos hreach hmin hn
    obtain ⟨n1, rfl⟩ : ∃ n1, n = n1 + 1 := ⟨n - 1, by omega⟩
    have hov2 : step + s.us_ticks ≤ U32 := by
      rcases hov with h | h
      · omega
      · exact h
    have hmin2 : elapsed + (k + 1) * step < uS * s.us_ticks := by
      rcases hmin with h | h
      · omega
      · exact h
    have e1 : (k + 1) * step = k * step + step := Nat.succ_mul k step
    have e2 : (k + 1 + 1) * step = k * step + step + step := by
      rw [Nat.succ_mul, Nat.succ_mul]
    simp only [steppedSamples, WaituS_loop, sub32_stepped hstep, add32_of_lt he]
    have hx : ¬ uS ≤ (elapsed + step) / s.us_ticks := fun h => by
      have := (Nat.le_div_iff_mul_le hpos).mp h
      omega
    simp only [ge_iff_le, hx, if_false]
    have hdm := Nat.div_add_mod (elapsed + step) s.us_ticks
    rw [Nat.mul_comm] at hdm
    have hr := Nat.mod_lt (elapsed + step) hpos
    have hsp := mul_split_sub (t := s.us_ticks) (le_of_lt (not_le.mp hx))
    obtain ⟨s1, h1, h2⟩ := ih n1
      { s with DEMCR := s.DEMCR ||| CoreDebug_DEMCR_TRCENA_Msk } (c + step)
      ((elapsed + step) % s.us_ticks) (uS - (elapsed + step) / s.us_ticks)
      (by omega) (Or.inr hov2) hpos
      (by
        show (uS - (elapsed + step) / s.us_ticks) * s.us_ticks ≤
          (elapsed + step) % s.us_ticks + (k + 1) * step
        generalize (elapsed + step) / s.us_ticks = q at hdm hsp
        generalize (elapsed + step) % s.us_ticks = r at hdm hr
        omega)
      (by
        show k = 0 ∨ (elapsed + step) % s.us_ticks + k * step <
          (uS - (elapsed + step) / s.us_ticks) * s.us_ticks
        right
        generalize (elapsed + step) / s.us_ticks = q at hdm hsp
        generalize (elapsed + step) % s.us_ticks = r at hdm hr
        omega)
      (by omega)
    refine ⟨s1, ?_, h2⟩
    rw [h1]
    have e3 : n1 + 1 - (k + 1 + 1) = n1 - (k + 1) := by omega
    have e4 : c + step + step + (k + 1) * step = c + step + (k + 1 + 1) * step := by omega
    rw [e3, e4]

/-- One call of `PIOS_DELAY_WaituS` on a stepped counter, with the ticks that
elapse inside it: `k + 1` loop reads, `(k + 1) * step` ticks. -/
theorem ticksInsideWaituS_stepped {step : Nat} (hstep : step < U32) (k n : Nat)
    (s : DelayState) (c uS : Nat) (hov : k = 0 ∨ step + s.us_ticks ≤ U32)
    (hpos : 0 < s.us_ticks) (hreach : uS * s.us_ticks ≤ (k + 1) * step)
    (hmin : k = 0 ∨ k * step < uS * s.us_ticks) (hn : k + 2 ≤ n) :
    ∃ s1, ticksInsideWaituS s uS (steppedSamples step n c) =
        some ((k + 1) * step, s1, steppedSamples step (n - (k + 2)) (c + (k + 2) * step)) ∧
      s1.us_ticks = s.us_ticks := by
  obtain ⟨n1, rfl⟩ : ∃ n1, n = n1 + 1 := ⟨n - 1, by omega⟩
  obtain ⟨s1, h1, h2⟩ := WaituS_loop_stepped hstep k n1
    { s with DEMCR := s.DEMCR ||| CoreDebug_DEMCR_TRCENA_Msk } c 0 uS
    (by omega) hov hpos (by simpa using hreach) (by simpa using hmin) (by omega)
  refine ⟨s1, ?_, h2⟩
  have hw : PIOS_DELAY_WaituS s uS (steppedSamples step (n1 + 1) c) =
      some (s1, steppedSamples step (n1 - (k + 1)) (c + step + (k + 1) * step)) := h1
  have e1 : n1 + 1 - (k + 2) = n1 - (k + 1) := by omega
  have e2 : c + (k + 2) * step = c + step + (k + 1) * step := by
    rw [show k + 2 = (k + 1) + 1 from rfl, Nat.succ_mul (k + 1)]
    omega
  have e3 : n1 + 1 - (n1 - (k + 1)) = (k + 1) + 1 := by omega
  unfold ticksInsideWaituS
  rw [hw]
  simp only [length_steppedSamples, e3]
  rw [take_steppedSamples step _ _ c (by omega)]
  have ht := ticksElapsed_stepped hstep (k + 1) c
  simp only [steppedSamples] at ht ⊢
  simp only [ht, e1, e2]


/-- Successive calls of `PIOS_DELAY_WaituS(uS)` on a stepped counter: each
takes `k + 1` loop reads and `(k + 1) * step` ticks, and the next call starts
one step after the last read of the call before. -/
theorem ticksInsideRepeated_stepped {step : Nat} (hstep : step < U32) (k uS m : Nat) :
    ∀ (n : Nat) (s : DelayState) (c : Nat),
      (k = 0 ∨ step + s.us_ticks ≤ U32) → 0 < s.us_ticks →
      uS * s.us_ticks ≤ (k + 1) * step → (k = 0 ∨ k * step < uS * s.us_ticks) →
      m * (k + 2) ≤ n →
      ∃ s1, ticksInsideRepeated uS m s (steppedSamples step n c) =
          some (m * ((k + 1) * step), s1,
            steppedSamples step (n - m * (k + 2)) (c + m * ((k + 2) * step))) ∧
        s1.us_ticks = s.us_ticks := by
  induction m with
  | zero =>
    intro n s c _ _ _ _ _
    exact ⟨s, by simp [ticksInsideRepeated], rfl⟩
  | succ m ih =>
    intro n s c hov hpos hreach hmin hn
    have hm : (m + 1) * (k + 2) = m * (k + 2) + (k + 2) := Nat.succ_mul _ _
    obtain ⟨s1, h1, h2⟩ :=
      ticksInsideWaituS_stepped hstep k n s c uS hov hpos hreach hmin (by omega)
    obtain ⟨s2, h3, h4⟩ := ih (n - (k + 2)) s1 (c + (k + 2) * step)
      (by rw [h2]; exact hov) (by rw [h2]; exact hpos) (by rw [h2]; exact hreach)
      (by rw [h2]; exact hmin) (by omega)
    refine ⟨s2, ?_, h4.trans h2⟩
    simp only [ticksInsideRepeated, h1, h3]
    have e1 : (k + 1) * step + m * ((k + 1) * step) = (m + 1) * ((k + 1) * step) := by
      rw [Nat.succ_mul m, Nat.add_comm]
    have e2 : n - (k + 2) - m * (k + 2) = n - (m + 1) * (k + 2) := by omega
    have e3 : c + (k + 2) * step + m * ((k + 2) * step) = c + (m + 1) * ((k + 2) * step) := by
      rw [Nat.succ_mul m, Nat.add_comm (m * _), Nat.add_assoc]
    rw [e1, e2, e3]

/-- Steps needed to cover `T` ticks: with `K = (T + step - 1) / step`, `K`
steps cover `T` and `K - 1` steps do not. -/
theorem ceil_steps {T step : Nat} (hT : 1 ≤ T) (hs : 1 ≤ step) :
    (T + step - 1) / step - 1 + 1 = (T + step - 1) / step ∧
      T ≤ (T + step - 1) / step * step ∧
      ((T + step - 1) / step - 1) * step < T ∧
      (T + step - 1) / step * step ≤ T + step - 1 ∧
      (step ≥ T → (T + step - 1) / step - 1 = 0) := by
  have hK : 1 ≤ (T + step - 1) / step := (Nat.le_div_iff_mul_le (by omega)).mpr (by omega)
  have hdm := Nat.div_add_mod (T + step - 1) step
  have hr := Nat.mod_lt (T + step - 1) (show 0 < step by omega)
  rw [Nat.mul_comm] at hdm
  have hle := Nat.div_mul_le_self (T + step - 1) step
  have hsp := mul_split_sub (t := step) hK
  have e1 : (T + step - 1) / step - 1 + 1 = (T + step - 1) / step := Nat.sub_add_cancel hK
  generalize (T + step - 1) / step = K at *
  generalize (T + step - 1) % step = r at *
  refine ⟨e1, by omega, by omega, hle, ?_⟩
  intro hge
  have h2 : K < 2 := lt_of_mul_lt (t := step) (by rw [Nat.mul_comm step K]; omega)
  omega

/-- On a counter that advances by `step` between reads, `m` successive calls
of `PIOS_DELAY_WaituS(uS)` take `m * (K * step)` ticks inside the calls, `K`
being the steps needed to cover `uS * us_ticks` ticks. -/
theorem ticksInsideRepeated_ceil {step : Nat} (h1 : 1 ≤ step) (hU : step < U32)
    (uS m n : Nat) (s : DelayState) (c : Nat) (hpos : 0 < s.us_ticks) (huS : 1 ≤ uS)
    (hsmall : uS * s.us_ticks + s.us_ticks ≤ U32)
    (hn : m * ((uS * s.us_ticks + step - 1) / step + 1) ≤ n) :
    ∃ s1 rest, ticksInsideRepeated uS m s (steppedSamples step n c) =
      some (m * ((uS * s.us_ticks + step - 1) / step * step), s1, rest) := by
  have hT : 1 ≤ uS * s.us_ticks := Nat.mul_pos huS hpos
  obtain ⟨e1, c1, c2, _, c4⟩ := ceil_steps hT h1
  have hov : (uS * s.us_ticks + step - 1) / step - 1 = 0 ∨ step + s.us_ticks ≤ U32 := by
    by_cases h : step + s.us_ticks ≤ U32
    · exact Or.inr h
    · exact Or.inl (c4 (by omega))
  obtain ⟨s1, hr, _⟩ := ticksInsideRepeated_stepped hU
    ((uS * s.us_ticks + step - 1) / step - 1) uS m n s c hov hpos
    (by rw [e1]; exact c1) (Or.inr c2)
    (by
      have e2 : (uS * s.us_ticks + step - 1) / step - 1 + 2 =
          (uS * s.us_ticks + step - 1) / step + 1 := by omega
      rw [e2]
      exact hn)
  rw [e1] at hr
  exact ⟨s1, _, hr⟩

/-- On a counter that advances by `step` between reads, one call of
`PIOS_DELAY_WaituS(uS)` takes `K * step` ticks, `K` being the steps needed to
cover `uS * us_ticks` ticks. -/
theorem ticksInsideWaituS_ceil {step : Nat} (h1 : 1 ≤ step) (hU : step < U32)
    (uS n : Nat) (s : DelayState) (c : Nat) (hpos : 0 < s.us_ticks) (huS : 1 ≤ uS)
    (hsmall : uS * s.us_ticks + s.us_ticks ≤ U32)
    (hn : (uS * s.us_ticks + step - 1) / step + 1 ≤ n) :
    ∃ s1 rest, ticksInsideWaituS s uS (steppedSamples step n c) =
      some ((uS * s.us_ticks + step - 1) / step * step, s1, rest) := by
  have hT : 1 ≤ uS * s.us_ticks := Nat.mul_pos huS hpos
  obtain ⟨e1, c1, c2, _, c4⟩ := ceil_steps hT h1
  have hov : (uS * s.us_ticks + step - 1) / step - 1 = 0 ∨ step + s.us_ticks ≤ U32 := by
    by_cases h : step + s.us_ticks ≤ U32
    · exact Or.inr h
    · exact Or.inl (c4 (by omega))
  obtain ⟨s1, hr, _⟩ := ticksInsideWaituS_stepped hU
    ((uS * s.us_ticks + step - 1) / step - 1) n s c uS hov hpos
    (by rw [e1]; exact c1) (Or.inr c2) (by omega)
  rw [e1] at hr
  exact ⟨s1, _, hr⟩

/-- C14 (as stated, refuted): 168 MHz and a counter that advances by 5 ticks
between consecutive reads.  Each `PIOS_DELAY_WaituS(1)` starts its count anew
and returns after 34 loop reads, 170 ticks, so a thousand of them take
170,000 ticks inside the calls; one `PIOS_DELAY_WaituS(1000)` takes 168,000.
The two differ by 2,000 ticks. -/
theorem C14_counterexample_step5 :
    PIOS_DELAY_Init true resetState 168000000 = Except.ok state168 ∧
      ∃ sA restA sB restB,
        ticksInsideRepeated 1 1000 state168 (steppedSamples 5 35000 0) =
          some (170000, sA, restA) ∧
        ticksInsideWaituS state168 1000 (steppedSamples 5 35000 0) =
          some (168000, sB, restB) ∧
        ¬ (170000 ≤ 168000 + 1) := by
  refine ⟨rfl, ?_⟩
  obtain ⟨sA, restA, hA⟩ := @ticksInsideRepeated_ceil 5 (by decide) (by decide)
    1 1000 35000 state168 0 (by decide) (by decide) (by decide) (by decide)
  obtain ⟨sB, restB, hB⟩ := @ticksInsideWaituS_ceil 5 (by decide) (by decide)
    1000 35000 state168 0 (by decide) (by decide) (by decide) (by decide)
  exact ⟨sA, restA, sB, restB, hA, hB, by decide⟩

/-- C14 (amended): on a counter that advances by a fixed `step` of ticks,
`1 ≤ step < 2^32`, between consecutive reads, for every calibrated
`us_ticks` and enough samples: the ticks that elapse inside one thousand
successive `PIOS_DELAY_WaituS(1)` calls are `1000 * ⌈us_ticks / step⌉ * step`,
those inside one `PIOS_DELAY_WaituS(1000)` call are
`⌈1000 * us_ticks / step⌉ * step`; the former are at least the latter and
exceed them by at most `1000 * (step - 1)` ticks, so the two are equal when
`step = 1`. -/
theorem C14_thousand_short_waits (s0 s : DelayState) (f step c n : Nat) (hf : f < U32)
    (hs : PIOS_DELAY_Init true s0 f = Except.ok s) (h1 : 1 ≤ step) (hU : step < U32)
    (hn : 1000 * (s.us_ticks + 1) ≤ n) :
    ∃ sA restA sB restB,
      ticksInsideRepeated 1 1000 s (steppedSamples step n c) =
        some (1000 * ((s.us_ticks + step - 1) / step * step), sA, restA) ∧
      ticksInsideWaituS s 1000 (steppedSamples step n c) =
        some ((1000 * s.us_ticks + step - 1) / step * step, sB, restB) ∧
      (1000 * s.us_ticks + step - 1) / step * step ≤
        1000 * ((s.us_ticks + step - 1) / step * step) ∧
      1000 * ((s.us_ticks + step - 1) / step * step) ≤
        (1000 * s.us_ticks + step - 1) / step * step + 1000 * (step - 1) := by
  obtain ⟨h3, _, _, _⟩ := init_true_inv hf hs
  have ht := (init_ok_inv hs).1
  have h4294 : s.us_ticks ≤ 4294 := by
    rw [ht]
    unfold U32 at hf
    omega
  have hpos : 0 < s.us_ticks := by omega
  obtain ⟨_, a1, a2, a3, _⟩ := ceil_steps (T := s.us_ticks) (by omega) h1
  obtain ⟨eB, b1, b2, b3, _⟩ := ceil_steps (T := 1000 * s.us_ticks) (by omega) h1
  have hKA : (s.us_ticks + step - 1) / step ≤ s.us_ticks := by
    rw [Nat.div_le_iff_le_mul_add_pred (by omega)]
    have := Nat.mul_le_mul_right s.us_ticks h1
    rw [Nat.one_mul] at this
    omega
  have hKB : (1000 * s.us_ticks + step - 1) / step ≤ 1000 * s.us_ticks := by
    rw [Nat.div_le_iff_le_mul_add_pred (by omega)]
    have := Nat.mul_le_mul_right (1000 * s.us_ticks) h1
    rw [Nat.one_mul] at this
    omega
  obtain ⟨sA, restA, hA⟩ := ticksInsideRepeated_ceil h1 hU 1 1000 n s c hpos (by decide)
    (by unfold U32; omega)
    (by
      rw [Nat.one_mul]
      omega)
  obtain ⟨sB, restB, hB⟩ := ticksInsideWaituS_ceil h1 hU 1000 n s c hpos (by decide)
    (by unfold U32; omega) (by omega)
  rw [Nat.one_mul] at hA
  refine ⟨sA, restA, sB, restB, hA, hB, ?_, ?_⟩
  · have hsp := mul_split_sub (t := step) (show 1 ≤ (1000 * s.us_ticks + step - 1) / step by omega)
    have hlt : (1000 * s.us_ticks + step - 1) / step <
        1000 * ((s.us_ticks + step - 1) / step) + 1 :=
      lt_of_mul_lt (t := step) (by
        rw [Nat.mul_add, Nat.mul_comm step (1000 * _), Nat.mul_assoc,
          Nat.mul_comm step ((1000 * s.us_ticks + step - 1) / step)]
        omega)
    have hle := Nat.mul_le_mul_right step (Nat.lt_succ_iff.mp hlt)
    rw [Nat.mul_assoc] at hle
    exact hle
  · omega

/-- Witness of C14 (amended): 168 MHz, steps of 5 ticks and of 1 tick. -/
theorem C14_thousand_short_waits_witness :
    (∃ sA restA sB restB,
      ticksInsideRepeated 1 1000 state168 (steppedSamples 5 169000 0) =
        some (1000 * ((state168.us_ticks + 5 - 1) / 5 * 5), sA, restA) ∧
      ticksInsideWaituS state168 1000 (steppedSamples 5 169000 0) =
        some ((1000 * state168.us_ticks + 5 - 1) / 5 * 5, sB, restB) ∧
      (1000 * state168.us_ticks + 5 - 1) / 5 * 5 ≤
        1000 * ((state168.us_ticks + 5 - 1) / 5 * 5) ∧
      1000 * ((state168.us_ticks + 5 - 1) / 5 * 5) ≤
        (1000 * state168.us_ticks + 5 - 1) / 5 * 5 + 1000 * (5 - 1)) ∧
    (∃ sA restA sB restB,
      ticksInsideRepeated 1 1000 state168 (steppedSamples 1 169000 0) =
        some (1000 * ((state168.us_ticks + 1 - 1) / 1 * 1), sA, restA) ∧
      ticksInsideWaituS state168 1000 (steppedSamples 1 169000 0) =
        some ((1000 * state168.us_ticks + 1 - 1) / 1 * 1, sB, restB) ∧
      (1000 * state168.us_ticks + 1 - 1) / 1 * 1 ≤
        1000 * ((state168.us_ticks + 1 - 1) / 1 * 1) ∧
      1000 * ((state168.us_ticks + 1 - 1) / 1 * 1) ≤
        (1000 * state168.us_ticks + 1 - 1) / 1 * 1 + 1000 * (1 - 1)) :=
  ⟨C14_thousand_short_waits resetState state168 168000000 5 0 169000 (by decide) rfl
      (by decide) (by decide) (by decide),
    C14_thousand_short_waits resetState state168 168000000 1 0 169000 (by decide) rfl
      (by decide) (by decide) (by decide)⟩

/-! ## No zero divisor after calibration: C21 -/

/-- C21: in every state a successful `PIOS_DELAY_Init` produces, for any
32-bit clock frequency, `us_ticks ≠ 0` and `us_modulo ≠ 0`, and so are the
divisors in the states `PIOS_DELAY_WaituS`, `PIOS_DELAY_GetuS` and
`PIOS_DELAY_GetuSSince` hand on; `us_ticks ≠ 0` holds also when the debug
assertion is not compiled in. -/
theorem C21_no_zero_divisor (debug : Bool) (s0 : DelayState) (f : Nat) (hf : f < U32) :
    (∀ s, PIOS_DELAY_Init true s0 f = Except.ok s →
        s.us_ticks ≠ 0 ∧ s.us_modulo ≠ 0 ∧
        (∀ c, (PIOS_DELAY_GetuS s c).1.us_ticks ≠ 0 ∧
          (PIOS_DELAY_GetuSSince s c c).1.us_modulo ≠ 0) ∧
        (∀ uS CYCCNT s1 rest, PIOS_DELAY_WaituS s uS CYCCNT = some (s1, rest) →
          s1.us_ticks ≠ 0 ∧ s1.us_modulo ≠ 0)) ∧
      (∀ s, PIOS_DELAY_Init debug s0 f = Except.ok s → s.us_ticks ≠ 0) := by
  constructor
  · intro s hs
    obtain ⟨_, _, hpos, h3⟩ := GetuS_le_modulo hf hs
    have ht : s.us_ticks ≠ 0 := by omega
    have hm : s.us_modulo ≠ 0 := by omega
    refine ⟨ht, hm, fun c => ⟨ht, hm⟩, ?_⟩
    intro uS CYCCNT s1 rest hw
    obtain ⟨h1, h2⟩ := WaituS_frame hw
    rw [h1, h2]
    exact ⟨ht, hm⟩
  · intro s hs
    exact (init_ok_inv hs).2.1

/-- Witness of C21: the state of a 168 MHz clock. -/
theorem C21_no_zero_divisor_witness :
    state168.us_ticks ≠ 0 ∧ state168.us_modulo ≠ 0 :=
  ⟨((C21_no_zero_divisor true resetState 168000000 (by decide)).1 state168 rfl).1,
    ((C21_no_zero_divisor true resetState 168000000 (by decide)).1 state168 rfl).2.1⟩

/-! ## One tick per microsecond and the half-range check: C22 -/

/-- C22: for `us_ticks = 1` the two-step computation is `0xffffffff + 1`,
which wraps to `us_modulo = 0`, and 0 passes `us_modulo < 0x80000000`; so a
clock with `us_ticks = 1` is refused by the assertion `us_ticks > 1` alone,
and when that assertion is not compiled in, `PIOS_DELAY_Init` returns with
`us_ticks = 1` and `us_modulo = 0`. -/
theorem C22_one_tick_passes_half_range (s : DelayState) (f : Nat)
    (h1 : 1000000 ≤ f) (h2 : f < 2000000) :
    0xffffffff / 1 + (0xffffffff % 1 + 1) / 1 = U32 ∧
      us_modulo_calc 1 = 0 ∧ us_modulo_calc 1 < 0x80000000 ∧
      f / 1000000 = 1 ∧
      PIOS_DELAY_Init true s f = Except.error Fault.assertTicks ∧
      PIOS_DELAY_Init false s f = Except.ok
        { us_ticks := 1
          us_modulo := 0
          DEMCR := s.DEMCR ||| CoreDebug_DEMCR_TRCENA_Msk
          DWT_CTRL := s.DWT_CTRL ||| DWT_CTRL_CYCCNTENA_Msk } := by
  have ht : f / 1000000 = 1 := by omega
  have hc : us_modulo_calc 1 = 0 := rfl
  refine ⟨rfl, hc, by rw [hc]; decide, ht, ?_, ?_⟩
  · simp [PIOS_DELAY_Init, ht]
  · simp [PIOS_DELAY_Init, ht, hc]

/-- Witness of C22: 1 MHz. -/
theorem C22_one_tick_passes_half_range_witness :
    PIOS_DELAY_Init true resetState 1000000 = Except.error Fault.assertTicks ∧
      PIOS_DELAY_Init false resetState 1000000 = Except.ok
        { us_ticks := 1
          us_modulo := 0
          DEMCR := resetState.DEMCR ||| CoreDebug_DEMCR_TRCENA_Msk
          DWT_CTRL := resetState.DWT_CTRL ||| DWT_CTRL_CYCCNTENA_Msk } :=
  ⟨(C22_one_tick_passes_half_range resetState 1000000 (by decide) (by decide)).2.2.2.2.1,
    (C22_one_tick_passes_half_range resetState 1000000 (by decide) (by decide)).2.2.2.2.2⟩

/-! ## The trace-enable bit at every read: C23 -/

/-- Setting the bits of a mask twice is setting them once. -/
theorem lor_mask_idem (x M : Nat) : x ||| M ||| M = x ||| M := by
  apply Nat.eq_of_testBit_eq
  intro i
  simp only [Nat.testBit_lor, Bool.or_assoc, Bool.or_self]

/-- The trace-enable mask is bit 24 and nothing else. -/
theorem TRCENA_testBit (i : Nat) :
    CoreDebug_DEMCR_TRCENA_Msk.testBit i = decide (24 = i) := by
  have h : CoreDebug_DEMCR_TRCENA_Msk = 2 ^ 24 := rfl
  rw [h, Nat.testBit_two_pow]

/-- At every read of the wait loop the register is the one at the loop
entry with the trace-enable bit set. -/
theorem WaituS_loop_DEMCR_all (CYCCNT : List Nat) :
    ∀ (s : DelayState) (elapsed last_count uS : Nat),
      ∀ d ∈ WaituS_loop_DEMCR s CYCCNT elapsed last_count uS,
        d = s.DEMCR ||| CoreDebug_DEMCR_TRCENA_Msk := by
  induction CYCCNT with
  | nil =>
    intro s elapsed last_count uS d hd
    simp [WaituS_loop_DEMCR] at hd
  | cons c cs ih =>
    intro s elapsed last_count uS d hd
    unfold WaituS_loop_DEMCR at hd
    simp only [List.mem_cons] at hd
    rcases hd with h | h
    · exact h
    · split at h
      · simp at h
      · have h2 := ih { s with DEMCR := s.DEMCR ||| CoreDebug_DEMCR_TRCENA_Msk } _ _ _ d h
        rw [h2]
        exact lor_mask_idem _ _

/-- A returning wait loop has read the register once per sample it read, and
hands on the register of its entry with the trace-enable bit set. -/
theorem WaituS_loop_DEMCR_length (CYCCNT : List Nat) :
    ∀ (s : DelayState) (elapsed last_count uS : Nat) (s1 : DelayState) (rest : List Nat),
      WaituS_loop s CYCCNT elapsed last_count uS = some (s1, rest) →
      (WaituS_loop_DEMCR s CYCCNT elapsed last_count uS).length + rest.length =
          CYCCNT.length ∧
        s1.DEMCR = s.DEMCR ||| CoreDebug_DEMCR_TRCENA_Msk := by
  induction CYCCNT with
  | nil =>
    intro s elapsed last_count uS s1 rest hw
    simp [WaituS_loop] at hw
  | cons c cs ih =>
    intro s elapsed last_count uS s1 rest hw
    unfold WaituS_loop at hw
    simp only [] at hw
    unfold WaituS_loop_DEMCR
    simp only []
    split at hw
    · rename_i hge
      injection hw with hw
      injection hw with h1 h2
      subst h1 h2
      simp only [hge, if_true, List.length_cons, List.length_nil]
      refine ⟨by omega, ?_⟩
      trivial
    · rename_i hlt
      obtain ⟨hl, hd⟩ :=
        ih { s with DEMCR := s.DEMCR ||| CoreDebug_DEMCR_TRCENA_Msk } _ _ _ _ _ hw
      simp only [] at hl hd
      simp only [hlt, if_false, List.length_cons]
      refine ⟨by omega, ?_⟩
      rw [hd]
      exact lor_mask_idem _ _

/-- C23: with `CoreDebug->DEMCR` as explicit state, `PIOS_DELAY_GetRaw`,
`PIOS_DELAY_GetuS` (and through it `PIOS_DELAY_GetuSSince`),
`PIOS_DELAY_DiffuS` and every read inside `PIOS_DELAY_WaituS` sample the
counter with the register holding its value of before with the trace-enable
mask OR-ed in, whatever that value was: the bit (bit 24) is set at each read.
The write is idempotent and leaves every bit outside the mask unchanged. -/
theorem C23_trace_enable_before_every_read (s : DelayState) (arg c uS : Nat)
    (CYCCNT : List Nat) :
    (s.DEMCR ||| CoreDebug_DEMCR_TRCENA_Msk ||| CoreDebug_DEMCR_TRCENA_Msk =
        s.DEMCR ||| CoreDebug_DEMCR_TRCENA_Msk) ∧
      (s.DEMCR ||| CoreDebug_DEMCR_TRCENA_Msk).testBit 24 = true ∧
      (∀ i, i ≠ 24 →
        (s.DEMCR ||| CoreDebug_DEMCR_TRCENA_Msk).testBit i = s.DEMCR.testBit i) ∧
      (PIOS_DELAY_GetRaw s c).1.DEMCR = s.DEMCR ||| CoreDebug_DEMCR_TRCENA_Msk ∧
      (PIOS_DELAY_GetuS s c).1.DEMCR = s.DEMCR ||| CoreDebug_DEMCR_TRCENA_Msk ∧
      (PIOS_DELAY_GetuSSince s arg c).1.DEMCR = s.DEMCR ||| CoreDebug_DEMCR_TRCENA_Msk ∧
      (PIOS_DELAY_DiffuS s arg c).1.DEMCR = s.DEMCR ||| CoreDebug_DEMCR_TRCENA_Msk ∧
      (∀ d ∈ PIOS_DELAY_WaituS_DEMCR s uS CYCCNT,
        d = s.DEMCR ||| CoreDebug_DEMCR_TRCENA_Msk) ∧
      (∀ s1 rest, PIOS_DELAY_WaituS s uS CYCCNT = some (s1, rest) →
        (PIOS_DELAY_WaituS_DEMCR s uS CYCCNT).length + rest.length = CYCCNT.length ∧
        s1.DEMCR = s.DEMCR ||| CoreDebug_DEMCR_TRCENA_Msk) ∧
      (∀ (s2 : DelayState) (current_count : Nat) (rest : List Nat)
          (elapsed last_count uS2 : Nat),
        (WaituS_loop_DEMCR s2 (current_count :: rest) elapsed last_count uS2).head? =
          some (s2.DEMCR ||| CoreDebug_DEMCR_TRCENA_Msk)) := by
  refine ⟨lor_mask_idem _ _, ?_, ?_, rfl, rfl, rfl, rfl, ?_, ?_, ?_⟩
  · rw [Nat.testBit_lor, TRCENA_testBit]
    simp
  · intro i hi
    rw [Nat.testBit_lor, TRCENA_testBit]
    have h : decide (24 = i) = false := decide_eq_false (fun h => hi h.symm)
    rw [h, Bool.or_false]
  · intro d hd
    cases CYCCNT with
    | nil => simp [PIOS_DELAY_WaituS_DEMCR] at hd
    | cons c0 cs =>
      unfold PIOS_DELAY_WaituS_DEMCR at hd
      simp only [List.mem_cons] at hd
      rcases hd with h | h
      · exact h
      · have h2 := WaituS_loop_DEMCR_all cs
          { s with DEMCR := s.DEMCR ||| CoreDebug_DEMCR_TRCENA_Msk } _ _ _ d h
        rw [h2]
        exact lor_mask_idem _ _
  · intro s1 rest hw
    cases CYCCNT with
    | nil => simp [PIOS_DELAY_WaituS] at hw
    | cons c0 cs =>
      have hw2 : WaituS_loop { s with DEMCR := s.DEMCR ||| CoreDebug_DEMCR_TRCENA_Msk }
          cs 0 c0 uS = some (s1, rest) := hw
      obtain ⟨hl, hd⟩ := WaituS_loop_DEMCR_length cs _ _ _ _ _ _ hw2
      simp only [] at hl hd
      unfold PIOS_DELAY_WaituS_DEMCR
      simp only [List.length_cons]
      refine ⟨by omega, ?_⟩
      rw [hd]
      exact lor_mask_idem _ _
  · intro s2 current_count rest elapsed last_count uS2
    unfold WaituS_loop_DEMCR
    rfl

/-- Witness of C23: a 500 microseconds wait at 168 ticks per microsecond
entered with the register cleared; two reads, the register at `0x01000000`
at the return. -/
theorem C23_trace_enable_before_every_read_witness :
    (PIOS_DELAY_WaituS_DEMCR { state168 with DEMCR := 0 } 500 [4294883376, 80]).length +
          ([] : List Nat).length = [4294883376, 80].length ∧
      state168.DEMCR =
        ({ state168 with DEMCR := 0 } : DelayState).DEMCR ||| CoreDebug_DEMCR_TRCENA_Msk :=
  (C23_trace_enable_before_every_read { state168 with DEMCR := 0 } 0 0 500
    [4294883376, 80]).2.2.2.2.2.2.2.2.1 state168 [] rfl

end PiosDelay
